import Mathlib

/-!
# Process orchestration of the shell: Command, Pipeline, Sequence

A shallow embedding of `Command.c`, `Pipeline.c` and `Sequence.c`, followed
by the front end: `Scanner.c`, `Parser.c` and `Interpreter.c`.

One run of the C code inside one operating-system process is a function
`Proc → Res α`: it threads the process-local state (the statics of `Command.c`,
the Job Table, the descriptor table, the log of system calls) and either
returns to its caller or ends the process (`execvp`, `exit`, a crash).
What the operating system answers is read from an `OS` value, so the same
definitions describe the shell (every `fork` answers a positive pid) and a
forked child (the `fork` that created it answers `0`).
-/

namespace Shell

/-! ## Data model -/

/-- The `CommandRep` record of `Command.c`: `file`, `argv` (without the
terminating null pointer), `input`, `output` (`none` is the null pointer). -/
structure Command where
  file : String
  argv : List String
  input : Option String
  output : Option String
deriving DecidableEq, Repr

/-- The `PipelineRep` record of `Pipeline.c`: the deque of commands and the
foreground flag (`fg`, false for `&`). -/
structure Pipeline where
  processes : List Command
  fg : Bool
deriving DecidableEq, Repr

/-- What an open descriptor refers to. -/
inductive File where
  | tty (n : Nat)
  | pipeRead (k : Nat)
  | pipeWrite (k : Nat)
  | input (path : String)
  | output (path : String)
deriving DecidableEq, Repr

/-- A system call (or diagnostic) performed by the process, in the order of
the log. -/
inductive Event where
  | pipe (r w : Nat)
  | pipeFailed
  | fork (pid : Int)
  | wait (pid : Int)
  | poll (pid : Int) (result : Int)
  | close (fd : Nat)
  | chdir (path : String) (ok : Bool)
  | print (text : String)
  | error (msg : String)
deriving DecidableEq, Repr

/-- How a process stopped running the shell code.  `undefined`: the code used
storage it had freed (a second `free`, a read), which C leaves undefined. -/
inductive Status where
  | execed (file : String) (argv : List String)
  | exited (code : Int)
  | crashed
  | undefined
deriving DecidableEq, Repr

/-- The answers of the environment.  `errorExits` is the behaviour of the
`ERROR` macro of `error.h`, which is not among the sources: `true` when the
macro ends the process after reporting, `false` when it returns. -/
structure OS where
  errorExits : Bool
  fork : Nat → Int
  waitpid_nohang : Nat → Int → Int
  pipe_ok : Nat → Bool
  chdir : String → String → Option String
  getcwd : String → Option String
  canOpen : String → Bool → Bool
  canExec : String → Bool
  history_base : Int

/-- The state of one process: the statics `cwd`, `owd`, `background_pids` of
`Command.c`, the Job Table, the descriptor table (index = descriptor), the
directory the OS holds for the process, the readline history, the number of
`fork`, non-blocking `waitpid` and `pipe` calls made so far, and the log.
`cwd` and `owd` are pointers to allocated strings: `shared` says that both
hold the same pointer (other than the null pointer), `cwd_freed` and
`owd_freed` that the string the static points to has been freed. -/
structure Proc where
  cwd : Option String
  owd : Option String
  background_pids : Option (List Int)
  jobs : List Pipeline
  fds : List (Option File)
  osdir : String
  history : List String
  nfork : Nat
  npoll : Nat
  npipe : Nat
  trace : List Event
  shared : Bool := false
  cwd_freed : Bool := false
  owd_freed : Bool := false
deriving DecidableEq, Repr

/-- The outcome of running a piece of code: it returned `a`, or the process
stopped. -/
inductive Res (α : Type) where
  | ret (a : α) (s : Proc)
  | stop (st : Status) (s : Proc)
deriving Repr

/-- Code running inside a process. -/
def Run (α : Type) : Type := Proc → Res α

/-- Sequential composition: a stopped process runs nothing more. -/
def Run.bind {α β : Type} (x : Run α) (f : α → Run β) : Run β :=
  fun s =>
    match x s with
    | .ret a s1 => f a s1
    | .stop st s1 => .stop st s1

instance : Monad Run where
  pure a := fun s => .ret a s
  bind := Run.bind

/-- The state after the code, whether it returned or stopped. -/
def Res.state {α : Type} : Res α → Proc
  | .ret _ s => s
  | .stop _ s => s

/-- How the process stopped, `none` when the code returned. -/
def Res.status {α : Type} : Res α → Option Status
  | .ret _ _ => none
  | .stop st _ => some st

/-- The value returned, `none` when the process stopped. -/
def Res.value {α : Type} : Res α → Option α
  | .ret a _ => some a
  | .stop _ _ => none

/-! ## System calls -/

/-- Read the process state. -/
def getProc : Run Proc := fun s => .ret s s

/-- Replace the process state. -/
def modifyProc (f : Proc → Proc) : Run Unit := fun s => .ret () (f s)

/-- Append an event to the log. -/
def emit (e : Event) : Run Unit :=
  modifyProc fun s => { s with trace := s.trace ++ [e] }

/-- The process stops. -/
def halt {α : Type} (st : Status) : Run α := fun s => .stop st s

/-- The `ERROR` macro: report, then end the process or return, as the
environment says. -/
def ERROR (os : OS) (msg : String) : Run Unit := do
  emit (.error msg)
  if os.errorExits then halt (.exited 1) else pure ()

/-- `fork()`: the value it returns in this process. -/
def fork (os : OS) : Run Int := fun s =>
  .ret (os.fork s.nfork)
    { s with nfork := s.nfork + 1, trace := s.trace ++ [.fork (os.fork s.nfork)] }

/-- `waitpid(pid, _, 0)`: the blocking wait. -/
def waitpid (pid : Int) : Run Unit := emit (.wait pid)

/-- `waitpid(pid, &status, WNOHANG)`: the non-blocking status check. -/
def waitpid_nohang (os : OS) (pid : Int) : Run Int := fun s =>
  .ret (os.waitpid_nohang s.npoll pid)
    { s with npoll := s.npoll + 1,
             trace := s.trace ++ [.poll pid (os.waitpid_nohang s.npoll pid)] }

/-- The lowest descriptor that is not open. -/
def lowestFree : List (Option File) → Nat
  | [] => 0
  | none :: _ => 0
  | some _ :: t => lowestFree t + 1

/-- Make descriptor `fd` refer to `f` (or to nothing). -/
def setFd : List (Option File) → Nat → Option File → List (Option File)
  | [], 0, f => [f]
  | [], fd + 1, f => none :: setFd [] fd f
  | _ :: t, 0, f => f :: t
  | x :: t, fd + 1, f => x :: setFd t fd f

/-- What descriptor `fd` refers to. -/
def getFd (t : List (Option File)) (fd : Nat) : Option File :=
  t[fd]?.join

/-- `pipe(p)`: on success the two lowest free descriptors become the read
and the write end of a new pipe. -/
def pipe (os : OS) : Run (Option (Nat × Nat)) := fun s =>
  if os.pipe_ok s.npipe then
    let r := lowestFree s.fds
    let t1 := setFd s.fds r (some (.pipeRead s.npipe))
    let w := lowestFree t1
    let t2 := setFd t1 w (some (.pipeWrite s.npipe))
    .ret (some (r, w))
      { s with fds := t2, npipe := s.npipe + 1, trace := s.trace ++ [.pipe r w] }
  else
    .ret none { s with npipe := s.npipe + 1, trace := s.trace ++ [.pipeFailed] }

/-- `dup2(oldfd, newfd)`: `-1` when `oldfd` is not open. -/
def dup2 (oldfd newfd : Nat) : Run Int := fun s =>
  match getFd s.fds oldfd with
  | some f => .ret newfd { s with fds := setFd s.fds newfd (some f) }
  | none => .ret (-1) s

/-- `close(fd)`. -/
def close (fd : Nat) : Run Unit :=
  modifyProc fun s =>
    { s with fds := setFd s.fds fd none, trace := s.trace ++ [.close fd] }

/-- `open(path, O_RDONLY)` when `write` is false,
`open(path, O_WRONLY | O_CREAT | O_TRUNC, 0666)` when it is true;
`none` is the result `-1`. -/
def sys_open (os : OS) (path : String) (write : Bool) : Run (Option Nat) := fun s =>
  if os.canOpen path write then
    let fd := lowestFree s.fds
    .ret (some fd)
      { s with fds := setFd s.fds fd (some (if write then .output path else .input path)) }
  else .ret none s

/-- `execvp(argv[0], argv)`: on success the process image is replaced and
the call does not return. -/
def execvp (os : OS) (argv : List String) : Run Unit :=
  match argv with
  | [] => halt .crashed
  | file :: _ => if os.canExec file then halt (.execed file argv) else pure ()

/-- `exit(code)`. -/
def exit {α : Type} (code : Int) : Run α := halt (.exited code)

/-- `chdir(path)`: `true` on success. -/
def chdir (os : OS) (path : String) : Run Bool := fun s =>
  match os.chdir s.osdir path with
  | some d => .ret true { s with osdir := d, trace := s.trace ++ [.chdir path true] }
  | none => .ret false { s with trace := s.trace ++ [.chdir path false] }

/-- `getcwd(0, 0)`. -/
def getcwd (os : OS) : Run (Option String) := fun s => .ret (os.getcwd s.osdir) s

/-- `printf`. -/
def printf (text : String) : Run Unit := emit (.print text)

/-! ## The deque library and the Job Table -/

/-- Modelled from the spec: `deq_new` of `deq.h`, which is not among the
sources; the queue is empty on creation. -/
def deq_new {α : Type} : List α := []

/-- Modelled from the spec: `deq_len` of `deq.h`, the number of entries. -/
def deq_len {α : Type} (q : List α) : Nat := q.length

/-- Modelled from the spec: `deq_tail_put` of `deq.h`, which appends at the
tail of the queue. -/
def deq_tail_put {α : Type} (q : List α) (d : α) : List α := q ++ [d]

/-- Modelled from the spec: `deq_head_get` of `deq.h`, which removes the head
of the queue and returns it; `none` on an empty queue. -/
def deq_head_get {α : Type} : List α → Option (α × List α)
  | [] => none
  | d :: q => some (d, q)

/-- Modelled from the spec: `deq_head_ith` of `deq.h`, the `i`-th entry from
the head, left in the queue. -/
def deq_head_ith {α : Type} (q : List α) (i : Nat) : Option α := q[i]?

/-- Modelled from the spec: `addJobs` of `Jobs.h`, which is not among the
sources; it records the pipeline in the Job Table. -/
def addJobs (pipeline : Pipeline) : Run Unit :=
  modifyProc fun s => { s with jobs := deq_tail_put s.jobs pipeline }

/-! ## Command.c -/

/-- The loop of `reap_background_processes`: `k` more entries to check, `q`
being the content of `background_pids`. -/
def reap_background_processes.loop (os : OS) : Nat → List Int → Run Unit
  | 0, _ => pure ()
  | k + 1, q =>
    match deq_head_get q with
    | none => halt .crashed
    | some (pid, q1) => do
      modifyProc fun s => { s with background_pids := some q1 }
      let result ← waitpid_nohang os pid
      if result = 0 then do
        modifyProc fun s => { s with background_pids := some (deq_tail_put q1 pid) }
        reap_background_processes.loop os k (deq_tail_put q1 pid)
      else
        reap_background_processes.loop os k q1

/-- The function `reap_background_processes` of `Command.c`. -/
def reap_background_processes (os : OS) : Run Unit := do
  let s ← getProc
  match s.background_pids with
  | none => pure ()
  | some q =>
    if deq_len q = 0 then pure ()
    else
      let num_to_check := deq_len q
      reap_background_processes.loop os num_to_check q

/-- The loop of `builtin_args`: `n` is decremented once per entry of `argv`. -/
def builtin_args.loop : List String → Int → Int
  | [], n => n
  | _ :: argv, n => builtin_args.loop argv (n - 1)

/-- The function `builtin_args` of `Command.c`. -/
def builtin_args (os : OS) (r : Command) (n : Int) : Run Unit :=
  if builtin_args.loop r.argv (n + 1) ≠ 0 then
    ERROR os "wrong number of arguments to builtin command"
  else pure ()

/-- The loop of `bi_exit`, `q` being the content of `background_pids`: while
the queue is not empty, take its head and wait for it. -/
def bi_exit.loop : List Int → Run Unit
  | [] => pure ()
  | exit_pid :: q => do
    modifyProc fun s => { s with background_pids := some q }
    waitpid exit_pid
    bi_exit.loop q

/-- The builtin `exit`; the result is the new value of `*eof`. -/
def bi_exit (os : OS) (r : Command) (_eof : Int) : Run Int := do
  builtin_args os r 0
  let s ← getProc
  match s.background_pids with
  | none => pure ()
  | some q => bi_exit.loop q
  pure 1

/-- The builtin `pwd`.  Printing a string that has been freed is undefined. -/
def bi_pwd (os : OS) (r : Command) (eof : Int) : Run Int := do
  builtin_args os r 0
  let s ← getProc
  if s.cwd.isNone then do
    let d ← getcwd os
    modifyProc fun s => { s with cwd := d, cwd_freed := false, shared := false }
  else pure ()
  let s ← getProc
  if s.cwd_freed then halt .undefined else pure ()
  printf (s.cwd.getD "(null)" ++ "\n")
  pure eof

/-- The builtin `cd`.  `argv[1]` is read without a check: when it is the null
pointer the process crashes.  `free(owd)` frees the string of `cwd` as well
when both statics hold the same pointer, and is undefined when the string
of `owd` has been freed already; `owd = cwd` copies the pointer; `getcwd`
returns a newly allocated string. -/
def bi_cd (os : OS) (r : Command) (eof : Int) : Run Int := do
  builtin_args os r 1
  match r.argv[1]? with
  | none => halt .crashed
  | some arg =>
    if arg = "-" then do
      modifyProc fun s =>
        { s with cwd := s.owd, owd := s.cwd, cwd_freed := s.owd_freed, owd_freed := s.cwd_freed }
      pure eof
    else do
      let s ← getProc
      if s.owd.isSome then
        if s.owd_freed then halt .undefined
        else modifyProc fun s =>
          { s with owd_freed := true, cwd_freed := s.cwd_freed || s.shared }
      else pure ()
      modifyProc fun s =>
        { s with owd := s.cwd, owd_freed := s.cwd_freed, shared := s.cwd.isSome }
      let ok ← chdir os arg
      if !ok then do
        ERROR os "chdir() failed"
        pure eof
      else do
        let d ← getcwd os
        modifyProc fun s => { s with cwd := d, cwd_freed := false, shared := false }
        if arg = "-" ∧ d.isSome then do
          let ok2 ← chdir os (d.getD "")
          if !ok2 then ERROR os "chdir() failed" else pure ()
        else pure ()
        pure eof

/-- The lines printed by `history`, numbered from `i + history_base`. -/
def bi_history.loop (os : OS) : List String → Int → Run Unit
  | [], _ => pure ()
  | line :: rest, i => do
    printf (toString (i + os.history_base) ++ ": " ++ line ++ "\n")
    bi_history.loop os rest (i + 1)

/-- The builtin `history`; `history_list()` is the null pointer when the
history is empty. -/
def bi_history (os : OS) (r : Command) (eof : Int) : Run Int := do
  builtin_args os r 0
  let s ← getProc
  bi_history.loop os s.history 0
  pure eof

/-- The table `builtins` of the dispatcher. -/
def builtins : List (String × (OS → Command → Int → Run Int)) :=
  [("exit", bi_exit), ("pwd", bi_pwd), ("cd", bi_cd), ("history", bi_history)]

/-- The search loop of `builtin`. -/
def builtin.loop (os : OS) (r : Command) (eof : Int) :
    List (String × (OS → Command → Int → Run Int)) → Run (Int × Int)
  | [] => pure (0, eof)
  | (s, f) :: rest =>
    if r.file = s then do
      let eof1 ← f os r eof
      pure (1, eof1)
    else builtin.loop os r eof rest

/-- The dispatcher `builtin` of `Command.c`: the value returned (1 when a
builtin ran, 0 otherwise) and the new value of `*eof`. -/
def builtin (os : OS) (r : Command) (eof : Int) : Run (Int × Int) :=
  builtin.loop os r eof builtins

/-- The function `child` of `Command.c`. -/
def child (os : OS) (r : Command) (_fg : Bool) : Run Unit := do
  match r.input with
  | none => pure ()
  | some path => do
    match (← sys_open os path false) with
    | none => do
      ERROR os "failed to open input file"
      exit 1
    | some fd => do
      if (← dup2 fd 0) = -1 then do
        ERROR os "dup2() failed for input"
        exit 1
      else pure ()
      close fd
  match r.output with
  | none => pure ()
  | some path => do
    match (← sys_open os path true) with
    | none => do
      ERROR os "failed to open output file"
      exit 1
    | some fd => do
      if (← dup2 fd 1) = -1 then do
        ERROR os "dup2() failed for output"
        exit 1
      else pure ()
      close fd
  let (b, _) ← builtin os r 0
  if b ≠ 0 then pure ()
  else do
    execvp os r.argv
    ERROR os "execvp() failed"
    exit 1

/-- The function `execCommand` of `Command.c`; the result is the new value of
`*jobbed` and of `*eof`. -/
def execCommand (os : OS) (r : Command) (pipeline : Pipeline)
    (jobbed eof : Int) (fg : Bool) : Run (Int × Int) := do
  let (b, eof1) ← if fg then builtin os r eof else pure (0, eof)
  if b ≠ 0 then pure (jobbed, eof1)
  else do
    let jobbed1 ← if jobbed = 0 then do
        addJobs pipeline
        pure 1
      else pure jobbed
    let pid ← fork os
    if pid = -1 then ERROR os "fork() failed" else pure ()
    if pid = 0 then
      child os r fg
    else if fg then
      waitpid pid
    else do
      let s ← getProc
      if s.background_pids.isNone then
        modifyProc fun s => { s with background_pids := some deq_new }
      else pure ()
      modifyProc fun s =>
        { s with background_pids := s.background_pids.map fun q => deq_tail_put q pid }
    pure (jobbed1, eof1)

/-! ## Pipeline.c -/

/-- The function `sizePipeline`. -/
def sizePipeline (pipeline : Pipeline) : Nat := deq_len pipeline.processes

/-- The loop of `execute` that creates the pipes, `k` more to create.  An
entry is `none` when `pipe()` failed and stored no descriptors. -/
def execute.createPipes (os : OS) : Nat → Run (List (Option (Nat × Nat)))
  | 0 => pure []
  | k + 1 => do
    let p ← pipe os
    if p.isNone then ERROR os "pipe() failed" else pure ()
    let rest ← execute.createPipes os k
    pure (p :: rest)

/-- Read the two descriptors of `pipes[j]`; reading descriptors that
`pipe()` never stored is undefined and is modelled as a crash. -/
def execute.pipeAt (pipes : List (Option (Nat × Nat))) (j : Nat) : Run (Nat × Nat) :=
  match pipes[j]?.join with
  | some p => pure p
  | none => halt .crashed

/-- The loops of `execute` that close both ends of every pipe. -/
def execute.closePipes (pipes : List (Option (Nat × Nat))) : Nat → Nat → Run Unit
  | 0, _ => pure ()
  | k + 1, j => do
    let p ← execute.pipeAt pipes j
    close p.1
    close p.2
    execute.closePipes pipes k (j + 1)

/-- The child of `execute`, "Set up input redirection": every command but
the first reads from the previous pipe. -/
def execute.pipeToStdin (os : OS) (pipes : List (Option (Nat × Nat))) (i : Nat) : Run Unit :=
  if i > 0 then do
    let p ← execute.pipeAt pipes (i - 1)
    if (← dup2 p.1 0) = -1 then ERROR os "dup2() failed" else pure ()
  else pure ()

/-- The child of `execute`, "Override with file redirection if specified",
for `cmd->input`. -/
def execute.fileToStdin (os : OS) (input : Option String) : Run Unit :=
  match input with
  | none => pure ()
  | some path => do
    match (← sys_open os path false) with
    | none => do
      ERROR os "failed to open input file"
      exit 1
    | some fd => do
      if (← dup2 fd 0) = -1 then ERROR os "dup2() failed" else pure ()
      close fd

/-- The child of `execute`, "Set up output redirection": every command but
the last writes to the next pipe. -/
def execute.pipeToStdout (os : OS) (pipes : List (Option (Nat × Nat))) (n i : Nat) :
    Run Unit :=
  if i + 1 < n then do
    let p ← execute.pipeAt pipes i
    if (← dup2 p.2 1) = -1 then ERROR os "dup2() failed" else pure ()
  else pure ()

/-- The child of `execute`, "Override with file redirection if specified",
for `cmd->output`. -/
def execute.fileToStdout (os : OS) (output : Option String) : Run Unit :=
  match output with
  | none => pure ()
  | some path => do
    match (← sys_open os path true) with
    | none => do
      ERROR os "failed to open output file"
      exit 1
    | some fd => do
      if (← dup2 fd 1) = -1 then ERROR os "dup2() failed" else pure ()
      close fd

/-- The body of `execute` run by the `i`-th forked child (`pids[i] == 0`):
the four redirection steps, "Close all pipe file descriptors in child",
"Execute the command". -/
def execute.child (os : OS) (r : Pipeline) (pipes : List (Option (Nat × Nat)))
    (n i : Nat) : Run Unit :=
  match deq_head_ith r.processes i with
  | none => halt .crashed
  | some cmd => do
    execute.pipeToStdin os pipes i
    execute.fileToStdin os cmd.input
    execute.pipeToStdout os pipes n i
    execute.fileToStdout os cmd.output
    execute.closePipes pipes (n - 1) 0
    execvp os cmd.argv
    ERROR os "execvp() failed"
    exit 1

/-- The loop of `execute` that forks the children, `k` more to fork, the
next one being the `i`-th; the result is the array `pids`. -/
def execute.forkAll (os : OS) (r : Pipeline) (pipes : List (Option (Nat × Nat)))
    (n : Nat) : Nat → Nat → Run (List Int)
  | 0, _ => pure []
  | k + 1, i => do
    let pid ← fork os
    if pid = -1 then ERROR os "fork() failed" else pure ()
    if pid = 0 then execute.child os r pipes n i else pure ()
    let rest ← execute.forkAll os r pipes n k (i + 1)
    pure (pid :: rest)

/-- The loop of `execute` that waits for every child. -/
def execute.waitAll : List Int → Run Unit
  | [] => pure ()
  | pid :: rest => do
    waitpid pid
    execute.waitAll rest

/-- The function `execute` of `Pipeline.c`; the result is the new value of
`*jobbed` and of `*eof`.  With `n = 0` the size handed to the first `malloc`
is `sizeof(int *) * (n - 1)`, which no allocation can satisfy. -/
def execute (os : OS) (pipeline : Pipeline) (jobbed eof : Int) : Run (Int × Int) := do
  let n := sizePipeline pipeline
  if n = 1 then
    match deq_head_ith pipeline.processes 0 with
    | none => halt .crashed
    | some command => execCommand os command pipeline jobbed eof pipeline.fg
  else do
    if n = 0 then ERROR os "malloc() failed" else pure ()
    let pipes ← execute.createPipes os (n - 1)
    let jobbed1 ← if jobbed = 0 then do
        addJobs pipeline
        pure 1
      else pure jobbed
    let pids ← execute.forkAll os pipeline pipes n n 0
    execute.closePipes pipes (n - 1) 0
    if pipeline.fg then execute.waitAll pids else pure ()
    pure (jobbed1, eof)

/-- The function `execPipeline` of `Pipeline.c`; the result is the new value
of `*eof`. -/
def execPipeline (os : OS) (pipeline : Pipeline) (eof : Int) : Run Int := do
  let (_, eof1) ← execute os pipeline 0 eof
  pure eof1

/-! ## Sequence.c -/

/-- The function `execSequence` of `Sequence.c`, on the content of the
sequence deque; the result is the new value of `*eof`. -/
def execSequence (os : OS) : List Pipeline → Int → Run Int
  | [], eof => pure eof
  | pipeline :: sequence, eof =>
    if eof ≠ 0 then pure eof
    else do
      let eof1 ← execPipeline os pipeline eof
      execSequence os sequence eof1

/-! ## Tree.h -/

/-- The record `struct T_redir`. -/
structure T_redir where
  input : Option String
  output : Option String
deriving DecidableEq, Repr

/-- The record `struct T_word`. -/
structure T_word where
  s : String
deriving DecidableEq, Repr

/-- The linked list `struct T_words`; `[]` is the null pointer. -/
abbrev T_words : Type := List T_word

/-- The record `struct T_command`. -/
structure T_command where
  words : T_words
  redir : Option T_redir
deriving DecidableEq, Repr

/-- The linked list `struct T_pipeline`; `null` is the null pointer. -/
inductive T_pipeline where
  | null
  | node (command : Option T_command) (pipeline : T_pipeline)
deriving DecidableEq, Repr

/-- The linked list `struct T_sequence`; `null` is the null pointer and `op`
is `";"`, `"&"` or the null pointer. -/
inductive T_sequence where
  | null
  | node (pipeline : T_pipeline) (op : Option String) (sequence : T_sequence)
deriving DecidableEq, Repr

/-! ## Command.c: construction -/

/-- The function `getargs` of `Command.c`: the strings of the words, in
order. -/
def getargs : T_words → List String
  | [] => []
  | word :: words => word.s :: getargs words

/-- The function `newCommand` of `Command.c`.  It is called on a non-empty
list only; `file` is `argv[0]`. -/
def newCommand (words : T_words) (redir : Option T_redir) : Command :=
  { file := (getargs words).headD ""
    argv := getargs words
    input := redir.bind fun rd => rd.input
    output := redir.bind fun rd => rd.output }

/-! ## Interpreter.c -/

/-- The `PipelineRep` record while the interpreter fills it: `addPipeline`
stores what `i_command` returns, the null pointer included. -/
structure PipelineRep where
  processes : List (Option Command)
  fg : Bool
deriving DecidableEq, Repr

/-- The function `newPipeline` of `Pipeline.c`. -/
def newPipeline (fg : Bool) : PipelineRep := { processes := deq_new, fg := fg }

/-- The function `addPipeline` of `Pipeline.c`. -/
def addPipeline (pipeline : PipelineRep) (command : Option Command) : PipelineRep :=
  { pipeline with processes := deq_tail_put pipeline.processes command }

/-- The function `newSequence` of `Sequence.c`. -/
def newSequence : List PipelineRep := deq_new

/-- The function `addSequence` of `Sequence.c`. -/
def addSequence (sequence : List PipelineRep) (pipeline : PipelineRep) : List PipelineRep :=
  deq_tail_put sequence pipeline

/-- The function `i_command` of `Interpreter.c`.  It calls
`newCommand(t->words)` with one argument, as `Command.h` declares it, while
`Command.c` defines `newCommand` with the second parameter `redir`: `junk` is
the value that parameter holds at such a call.  `t->redir` is not read. -/
def i_command (junk : Option T_redir) (t : Option T_command) : Option Command :=
  match t with
  | none => none
  | some t => if t.words ≠ [] then some (newCommand t.words junk) else none

/-- The function `i_pipeline` of `Interpreter.c`. -/
def i_pipeline (junk : Option T_redir) : T_pipeline → PipelineRep → PipelineRep
  | .null, pipeline => pipeline
  | .node command rest, pipeline =>
    i_pipeline junk rest (addPipeline pipeline (i_command junk command))

/-- The function `i_sequence` of `Interpreter.c`. -/
def i_sequence (junk : Option T_redir) : T_sequence → List PipelineRep → List PipelineRep
  | .null, sequence => sequence
  | .node pipeline op rest, sequence =>
    let processFlag := if op = some "&" then false else true
    i_sequence junk rest (addSequence sequence (i_pipeline junk pipeline (newPipeline processFlag)))

/-! ## Scanner.c -/

/-- The record `ScannerRep`.  A C string is the list of its characters before
the terminating null character; `pos` is the rest of `str` from the current
position on, and `curr` is the null pointer until a token has been read. -/
structure ScannerRep where
  eos : Int
  str : List Char
  pos : List Char
  curr : Option String
deriving DecidableEq, Repr

/-- The function `newScanner`; `malloc` is taken to succeed. -/
def newScanner (s : List Char) : ScannerRep := { eos := 0, str := s, pos := s, curr := none }

/-- The function `thru`: advance through the characters found in `q`. -/
def thru : List Char → List Char → List Char
  | [], _ => []
  | c :: p, q => if c ∈ q then thru p q else c :: p

/-- The function `upto`: advance up to the first character found in `q`. -/
def upto : List Char → List Char → List Char
  | [], _ => []
  | c :: p, q => if c ∉ q then upto p q else c :: p

/-- The function `wsthru`. -/
def wsthru (p : List Char) : List Char := thru p [' ', '\t']

/-- The function `wsupto`. -/
def wsupto (p : List Char) : List Char := upto p [' ', '\t']

/-- The function `nextScanner`: the token returned (`none` is the null
pointer) and the scanner afterwards.  `size = new - old` characters are
copied from `old`; `malloc` is taken to succeed. -/
def nextScanner (r : ScannerRep) : Option String × ScannerRep :=
  if r.eos ≠ 0 then (none, r)
  else
    let old := wsthru r.pos
    let new := wsupto old
    let size := old.length - new.length
    if size = 0 then (none, { r with eos := 1 })
    else
      let curr := String.mk (old.take size)
      (some curr, { r with curr := some curr, pos := new })

/-- The function `posScanner`. -/
def posScanner (r : ScannerRep) : Nat := r.str.length - r.pos.length

/-- The function `currScanner`. -/
def currScanner (r : ScannerRep) : Option String × ScannerRep :=
  if r.eos ≠ 0 then (none, r)
  else if r.curr.isSome then (r.curr, r)
  else nextScanner r

/-- The function `cmpScanner`.  After `currScanner` the token `curr` is the
null pointer only when `eos` is set, so that `strcmp` is given a string. -/
def cmpScanner (r : ScannerRep) (s : String) : Int × ScannerRep :=
  let r1 := (currScanner r).2
  if r1.eos ≠ 0 then (0, r1)
  else if r1.curr ≠ some s then (0, r1)
  else (1, r1)

/-- The function `eatScanner`. -/
def eatScanner (r : ScannerRep) (s : String) : Int × ScannerRep :=
  let res := cmpScanner r s
  if res.1 ≠ 0 then (res.1, (nextScanner res.2).2) else res

/-! ## Parser.c -/

/-- Modelled from the spec: `new_pipeline` of `Tree.c`, which is not among the
sources, returns a node whose fields are null pointers (the list of a
pipeline ends at the node that no `|` follows). -/
def new_pipeline : T_pipeline := .node none .null

/-- Modelled from the spec: `new_sequence` of `Tree.c`, which is not among the
sources, returns a node whose fields are null pointers (a junction without
operator has none and defaults to foreground). -/
def new_sequence : T_sequence := .node .null none .null

/-- The assignment `pipeline->command = command`. -/
def T_pipeline.set_command : T_pipeline → Option T_command → T_pipeline
  | .null, _ => .null
  | .node _ rest, command => .node command rest

/-- The assignment `pipeline->pipeline = rest`. -/
def T_pipeline.set_pipeline : T_pipeline → T_pipeline → T_pipeline
  | .null, _ => .null
  | .node command _, rest => .node command rest

/-- The assignment `sequence->pipeline = pipeline`. -/
def T_sequence.set_pipeline : T_sequence → T_pipeline → T_sequence
  | .null, _ => .null
  | .node _ op rest, pipeline => .node pipeline op rest

/-- The assignment `sequence->op = op`. -/
def T_sequence.set_op : T_sequence → String → T_sequence
  | .null, _ => .null
  | .node pipeline _ rest, op => .node pipeline (some op) rest

/-- The assignment `sequence->sequence = rest`. -/
def T_sequence.set_sequence : T_sequence → T_sequence → T_sequence
  | .null, _ => .null
  | .node pipeline op _, rest => .node pipeline op rest

/-- The state of the parser: the static `scan` of `Parser.c` and the errors
reported so far. -/
structure ParserState where
  scan : ScannerRep
  trace : List Event
deriving DecidableEq, Repr

/-- The outcome of a function of `Parser.c`: it returned `a`, or the process
stopped. -/
inductive Parsed (α : Type) where
  | ret (a : α) (s : ParserState)
  | stop (st : Status) (s : ParserState)
deriving DecidableEq, Repr

/-- Code of `Parser.c`; `none` when the bound on the depth of the recursion
is reached. -/
def Parse (α : Type) : Type := ParserState → Option (Parsed α)

/-- Sequential composition: a stopped process runs nothing more. -/
def Parse.bind {α β : Type} (x : Parse α) (f : α → Parse β) : Parse β :=
  fun s =>
    match x s with
    | none => none
    | some (.ret a s1) => f a s1
    | some (.stop st s1) => some (.stop st s1)

instance : Monad Parse where
  pure a := fun s => some (.ret a s)
  bind := Parse.bind

/-- The function `next` of `Parser.c`. -/
def Parser.next : Parse (Option String) := fun s =>
  some (.ret (nextScanner s.scan).1 { s with scan := (nextScanner s.scan).2 })

/-- The function `curr` of `Parser.c`. -/
def Parser.curr : Parse (Option String) := fun s =>
  some (.ret (currScanner s.scan).1 { s with scan := (currScanner s.scan).2 })

/-- The function `cmp` of `Parser.c`. -/
def Parser.cmp (t : String) : Parse Int := fun s =>
  some (.ret (cmpScanner s.scan t).1 { s with scan := (cmpScanner s.scan t).2 })

/-- The function `eat` of `Parser.c`. -/
def Parser.eat (t : String) : Parse Int := fun s =>
  some (.ret (eatScanner s.scan t).1 { s with scan := (eatScanner s.scan t).2 })

/-- The `ERROR` macro as `Parser.c` redefines it: the message is followed by
the position of the scanner; whether the macro ends the process is the
behaviour of `ERRORLOC` of `error.h`. -/
def Parser.ERROR (os : OS) (msg : String) : Parse Unit := fun s =>
  let s1 := { s with
    trace := s.trace ++ [.error (msg ++ " (pos: " ++ toString (posScanner s.scan) ++ ")")] }
  if os.errorExits then some (.stop (.exited 1) s1) else some (.ret () s1)

/-- A read through the null pointer. -/
def Parser.crash {α : Type} : Parse α := fun s => some (.stop .crashed s)

/-- The function `p_word`. -/
def p_word : Parse (Option T_word) := do
  let s ← Parser.curr
  match s with
  | none => pure none
  | some s => do
    let word : T_word := { s := s }
    let _ ← Parser.next
    pure (some word)

/-- The function `p_words`, with a bound on the depth of the recursion.  A
list is returned for the linked cells: the null pointer is `[]`, and the
cell made by `new_words` keeps a null `words` link when an operator
follows. -/
def p_words : Nat → Parse T_words
  | 0 => fun _ => none
  | fuel + 1 => do
    match (← p_word) with
    | none => pure []
    | some word => do
      let c1 ← Parser.cmp "|"
      let c2 ← if c1 ≠ 0 then pure c1 else Parser.cmp "&"
      let c3 ← if c2 ≠ 0 then pure c2 else Parser.cmp ";"
      let c4 ← if c3 ≠ 0 then pure c3 else Parser.cmp "<"
      let c5 ← if c4 ≠ 0 then pure c4 else Parser.cmp ">"
      if c5 ≠ 0 then pure [word]
      else do
        let words ← p_words fuel
        pure (word :: words)

/-- The function `p_redir`.  When no word follows `<` or `>` and `ERROR`
returns, `word->s` reads through the null pointer. -/
def p_redir (os : OS) : Parse T_redir := do
  let redir : T_redir := { input := none, output := none }
  let redir ← if (← Parser.eat "<") ≠ 0 then do
      match (← p_word) with
      | none => do
        Parser.ERROR os "expected filename after <"
        Parser.crash
      | some word => pure { redir with input := some word.s }
    else pure redir
  let redir ← if (← Parser.eat ">") ≠ 0 then do
      match (← p_word) with
      | none => do
        Parser.ERROR os "expected filename after >"
        Parser.crash
      | some word => pure { redir with output := some word.s }
    else pure redir
  pure redir

/-- The function `p_command`; `none` is the null pointer. -/
def p_command (os : OS) (fuel : Nat) : Parse (Option T_command) := do
  let words ← p_words fuel
  if words = [] then pure none
  else do
    let redir ← p_redir os
    pure (some { words := words, redir := some redir })

/-- The function `p_pipeline`, with a bound on the depth of the recursion. -/
def p_pipeline (os : OS) : Nat → Parse T_pipeline
  | 0 => fun _ => none
  | fuel + 1 => do
    let command ← p_command os (fuel + 1)
    if command = none then pure .null
    else do
      let pipeline := new_pipeline.set_command command
      if (← Parser.eat "|") ≠ 0 then do
        let rest ← p_pipeline os fuel
        pure (pipeline.set_pipeline rest)
      else pure pipeline

/-- The function `p_sequence`, with a bound on the depth of the recursion. -/
def p_sequence (os : OS) : Nat → Parse T_sequence
  | 0 => fun _ => none
  | fuel + 1 => do
    let pipeline ← p_pipeline os (fuel + 1)
    if pipeline = .null then pure .null
    else do
      let sequence := new_sequence.set_pipeline pipeline
      let sequence ← if (← Parser.eat "&") ≠ 0 then do
          let rest ← p_sequence os fuel
          pure ((sequence.set_op "&").set_sequence rest)
        else pure sequence
      let sequence ← if (← Parser.eat ";") ≠ 0 then do
          let rest ← p_sequence os fuel
          pure ((sequence.set_op ";").set_sequence rest)
        else pure sequence
      pure sequence

/-- The function `parseTree`: the tree returned and the state of the parser
when `freeScanner` is called. -/
def parseTree (os : OS) (fuel : Nat) (s : List Char) : Option (Parsed T_sequence) :=
  (do
    let tree ← p_sequence os fuel
    if (← Parser.curr).isSome then Parser.ERROR os "extra characters at end of input"
    else pure ()
    pure tree : Parse T_sequence) { scan := newScanner s, trace := [] }

/-! ## Reference behaviour used to state the properties -/

/-- Run every pipeline of the list in order, without looking at the
end-of-input flag. -/
def runAll (os : OS) : List Pipeline → Int → Run Int
  | [], eof => pure eof
  | pipeline :: rest, eof => do
    let eof1 ← execPipeline os pipeline eof
    runAll os rest eof1

/-- The entries of `q` whose status check, the first being the `k`-th of the
process, answers "still running". -/
def stillRunning (os : OS) : Nat → List Int → List Int
  | _, [] => []
  | k, pid :: q =>
    if os.waitpid_nohang k pid = 0 then pid :: stillRunning os (k + 1) q
    else stillRunning os (k + 1) q

/-- One status check per entry of `q`, in queue order, with its answer. -/
def sweepChecks (os : OS) : Nat → List Int → List Event
  | _, [] => []
  | k, pid :: q => Event.poll pid (os.waitpid_nohang k pid) :: sweepChecks os (k + 1) q

/-- The pids answered by `k` successive `fork` calls, the first being the
`a`-th of the process. -/
def launched (os : OS) (a k : Nat) : List Int := (List.range k).map fun j => os.fork (a + j)

/-- The names of the table of the builtin dispatcher. -/
def builtinNames : List String := ["exit", "pwd", "cd", "history"]

/-- The pipelines of a sequence list with their operators, from left to
right. -/
def T_sequence.nodes : T_sequence → List (T_pipeline × Option String)
  | .null => []
  | .node pipeline op rest => (pipeline, op) :: T_sequence.nodes rest

/-- The commands of a pipeline list, from left to right. -/
def T_pipeline.commands : T_pipeline → List (Option T_command)
  | .null => []
  | .node command rest => command :: T_pipeline.commands rest

/-- Whether a character is a space or a tab. -/
def isBlank (c : Char) : Bool := c = ' ' || c = '\t'

/-- The maximal runs of characters of `s` that are neither a space nor a
tab: `s` is split at every space and tab and the empty pieces are dropped. -/
def tokensOf (s : List Char) : List String :=
  ((s.splitOnP isBlank).filter fun piece => piece ≠ []).map String.mk

/-- The results of `k` successive calls of `nextScanner`. -/
def nextScanner.calls : Nat → ScannerRep → List (Option String)
  | 0, _ => []
  | k + 1, r => (nextScanner r).1 :: nextScanner.calls k (nextScanner r).2

/-- The events of creating the pipes `ps`. -/
def pipeEvents (ps : List (Nat × Nat)) : List Event := ps.map fun pr => Event.pipe pr.1 pr.2

/-- The events of closing both ends of each of the pipes `ps`. -/
def closeEvents : List (Nat × Nat) → List Event
  | [] => []
  | pr :: ps => Event.close pr.1 :: Event.close pr.2 :: closeEvents ps

/-- The table after closing both ends of each of the pipes `ps`. -/
def closeAll : List (Nat × Nat) → List (Option File) → List (Option File)
  | [], t => t
  | pr :: ps, t => closeAll ps (setFd (setFd t pr.1 none) pr.2 none)

/-- Both ends of each of the pipes `ps` are open in the table `t`. -/
def PipesOpen (t : List (Option File)) (ps : List (Nat × Nat)) : Prop :=
  ∀ pr ∈ ps, getFd t pr.1 ≠ none ∧ getFd t pr.2 ≠ none

/-- The tokens the parser has still to read: the current one, if any, and
those after the position. -/
def ScannerRep.pending (r : ScannerRep) : List String :=
  if r.eos ≠ 0 then [] else r.curr.toList ++ tokensOf r.pos

/-- The tokens of the redirection part `[< in] [> out]`. -/
def redirTokens (inp out : Option String) : List String :=
  (match inp with | some file => ["<", file] | none => []) ++
  (match out with | some file => [">", file] | none => [])

/-- The operator tokens. -/
def operators : List String := ["|", "&", ";", "<", ">"]

/-- A token has been read, unless the end of the string was reached. -/
def ScannerRep.Ready (r : ScannerRep) : Prop := r.eos = 0 → r.curr ≠ none

/-- Every node of the sequence list holds a pipeline list that is not the null
pointer. -/
def T_sequence.Full : T_sequence → Prop
  | .null => True
  | .node pipeline _ rest => pipeline ≠ .null ∧ T_sequence.Full rest

/-- The value returned by code of `Parser.c`, `none` when it did not return. -/
def Parsed.value {α : Type} : Option (Parsed α) → Option α
  | some (.ret a _) => some a
  | _ => none

/-! ## Concrete inputs -/

/-- An environment in which every call succeeds and this process is the
shell: the `k`-th `fork` answers pid `100 + k`. -/
def shellOS : OS :=
  { errorExits := true
    fork := fun k => 100 + k
    waitpid_nohang := fun k pid => if k % 2 = 0 then 0 else pid
    pipe_ok := fun _ => true
    chdir := fun _ path => some path
    getcwd := fun d => some d
    canOpen := fun _ _ => true
    canExec := fun _ => true
    history_base := 1 }

/-- The same environment seen from the child created by the `k`-th `fork`. -/
def childOS (k : Nat) : OS :=
  { shellOS with fork := fun j => if j = k then 0 else 100 + j }

/-- A freshly started shell: nothing cached, no registry, the three standard
descriptors open. -/
def freshShell : Proc :=
  { cwd := none
    owd := none
    background_pids := none
    jobs := []
    fds := [some (.tty 0), some (.tty 1), some (.tty 2)]
    osdir := "/home"
    history := ["ls", "pwd"]
    nfork := 0
    npoll := 0
    npipe := 0
    trace := [] }

/-- The command built from a list of words, without redirection. -/
def simpleCommand (words : List String) : Command :=
  { file := words.headD "", argv := words, input := none, output := none }

/-- The foreground pipeline `ls | cat | wc`. -/
def lsCatWc : Pipeline :=
  { processes := [simpleCommand ["ls"], simpleCommand ["cat"], simpleCommand ["wc"]], fg := true }

/-- The command `cat < in.txt > out.txt`. -/
def catRedirected : Command :=
  { file := "cat", argv := ["cat"], input := some "in.txt", output := some "out.txt" }

/-- The foreground pipeline `ls | cat < in.txt > out.txt | wc`. -/
def lsCatRedirectedWc : Pipeline :=
  { processes := [simpleCommand ["ls"], catRedirected, simpleCommand ["wc"]], fg := true }

/-- The foreground pipeline `pwd`. -/
def pwdAlone : Pipeline := { processes := [simpleCommand ["pwd"]], fg := true }

/-- The background pipeline `sleep 1 &`. -/
def sleepBackground : Pipeline := { processes := [simpleCommand ["sleep", "1"]], fg := false }

/-- The environment of `shellOS` in which `ERROR` returns after reporting. -/
def warnOS : OS := { shellOS with errorExits := false }

/-- The environment of `warnOS` in which no directory change succeeds. -/
def noChdirOS : OS := { warnOS with chdir := fun _ _ => none }

/-- An environment as `warnOS` in which the directory `/nowhere` does not
exist. -/
def pickyOS : OS :=
  { warnOS with chdir := fun _ path => if path = "/nowhere" then none else some path }

/-- A shell in `/home` that cached `/home` as current and `/tmp` as previous
directory. -/
def homeShell : Proc := { freshShell with cwd := some "/home", owd := some "/tmp" }

/-- The background pipeline `pwd &`. -/
def pwdBackground : Pipeline := { processes := [simpleCommand ["pwd"]], fg := false }

/-- The foreground pipeline `ls`. -/
def lsAlone : Pipeline := { processes := [simpleCommand ["ls"]], fg := true }

/-! ## Predicates used to state the properties -/

/-- Events that neither create nor wait for a process. -/
def Event.quiet : Event → Bool
  | .fork _ => false
  | .wait _ => false
  | _ => true

/-- From `s` to `s1` no process was created or waited for, and the Job Table
and the registry are the same. -/
def Quiet (s s1 : Proc) : Prop :=
  s1.nfork = s.nfork ∧ s1.jobs = s.jobs ∧ s1.background_pids = s.background_pids ∧
    ∃ evs, s1.trace = s.trace ++ evs ∧ ∀ e ∈ evs, Event.quiet e = true

/-- Code that is quiet from every state. -/
structure RunQuiet {α : Type} (x : Run α) : Prop where
  run : ∀ s, Quiet s (x s).state

/-- The effect a builtin run in the shell may have besides the cached
directories and the flag: no process is created, the Job Table is untouched,
nothing is added to the registry, and only `exit` waits, on registered pids. -/
def BuiltinEffect (name : String) (s s1 : Proc) : Prop :=
  s1.nfork = s.nfork ∧ s1.jobs = s.jobs ∧
  (∃ evs, s1.trace = s.trace ++ evs ∧ (∀ pid, Event.fork pid ∉ evs) ∧
    (∀ pid, Event.wait pid ∈ evs → name = "exit" ∧ pid ∈ s.background_pids.getD [])) ∧
  (∀ pid, pid ∈ s1.background_pids.getD [] → pid ∈ s.background_pids.getD [])

/-- The first `m` entries of the array `pipes` are pipes that are open in the
table `t`, on descriptors other than 0 and 1: entry `j` is pipe `base + j`. -/
def Wired (t : List (Option File)) (base : Nat) (pipes : List (Option (Nat × Nat)))
    (m : Nat) : Prop :=
  ∀ j, j < m → ∃ r w, pipes[j]? = some (some (r, w)) ∧ r ≠ 0 ∧ r ≠ 1 ∧ w ≠ 0 ∧ w ≠ 1 ∧
    getFd t r = some (.pipeRead (base + j)) ∧ getFd t w = some (.pipeWrite (base + j))

/-- A step of the child of a pipeline keeps both ends of the pipes `ps` open
and returns, or ends the process with `exit(EXIT_FAILURE)`. -/
def PhaseOk (ps : List (Nat × Nat)) (x : Run Unit) : Prop :=
  ∀ s, PipesOpen s.fds ps →
    (∃ s1 evs, x s = .ret () s1 ∧ PipesOpen s1.fds ps ∧ s1.trace = s.trace ++ evs) ∨
    (∃ s1, x s = .stop (.exited 1) s1)

/-! ## Running code: basic facts -/

@[simp] theorem pure_run {α : Type} (a : α) (s : Proc) : (pure a : Run α) s = .ret a s := rfl

@[simp] theorem bind_run {α β : Type} (x : Run α) (f : α → Run β) (s : Proc) :
    (x >>= f) s = match x s with
      | .ret a s1 => f a s1
      | .stop st s1 => .stop st s1 := rfl

@[simp] theorem getProc_run (s : Proc) : getProc s = .ret s s := rfl
@[simp] theorem modifyProc_run (f : Proc → Proc) (s : Proc) : modifyProc f s = .ret () (f s) := rfl
@[simp] theorem emit_run (e : Event) (s : Proc) :
    emit e s = .ret () { s with trace := s.trace ++ [e] } := rfl
@[simp] theorem halt_run {α : Type} (st : Status) (s : Proc) : (halt st : Run α) s = .stop st s := rfl
@[simp] theorem waitpid_run (pid : Int) (s : Proc) :
    waitpid pid s = .ret () { s with trace := s.trace ++ [.wait pid] } := rfl

@[simp] theorem waitpid_nohang_run (os : OS) (pid : Int) (s : Proc) :
    waitpid_nohang os pid s = .ret (os.waitpid_nohang s.npoll pid)
      { s with npoll := s.npoll + 1,
               trace := s.trace ++ [.poll pid (os.waitpid_nohang s.npoll pid)] } := rfl

@[simp] theorem fork_run (os : OS) (s : Proc) :
    fork os s = .ret (os.fork s.nfork)
      { s with nfork := s.nfork + 1, trace := s.trace ++ [.fork (os.fork s.nfork)] } := rfl

@[simp] theorem close_run (fd : Nat) (s : Proc) :
    close fd s = .ret () { s with fds := setFd s.fds fd none, trace := s.trace ++ [.close fd] } := rfl

@[simp] theorem addJobs_run (p : Pipeline) (s : Proc) :
    addJobs p s = .ret () { s with jobs := s.jobs ++ [p] } := rfl

@[simp] theorem chdir_run (os : OS) (path : String) (s : Proc) :
    chdir os path s = match os.chdir s.osdir path with
      | some d => .ret true { s with osdir := d, trace := s.trace ++ [.chdir path true] }
      | none => .ret false { s with trace := s.trace ++ [.chdir path false] } := rfl
@[simp] theorem getcwd_run (os : OS) (s : Proc) : getcwd os s = .ret (os.getcwd s.osdir) s := rfl
@[simp] theorem printf_run (text : String) (s : Proc) :
    printf text s = .ret () { s with trace := s.trace ++ [.print text] } := rfl

/-! ## Builtins -/

theorem builtin_args_loop_eq (argv : List String) (n : Int) :
    builtin_args.loop argv n = n - argv.length := by
  induction argv generalizing n with
  | nil => simp [builtin_args.loop]
  | cons a argv ih => simp [builtin_args.loop, ih]; ring

theorem builtin_args_ok (os : OS) (r : Command) (n : Int) (s : Proc)
    (h : (r.argv.length : Int) = n + 1) : builtin_args os r n s = .ret () s := by
  simp [builtin_args, builtin_args_loop_eq, h]

theorem bi_exit_loop_run (q : List Int) (s : Proc) :
    bi_exit.loop q s =
      .ret () { s with background_pids := if q = [] then s.background_pids else some [],
                       trace := s.trace ++ q.map Event.wait } := by
  induction q generalizing s with
  | nil => simp [bi_exit.loop]
  | cons pid q ih =>
    simp [bi_exit.loop, ih]

theorem reap_loop_run (os : OS) (rem acc : List Int) (s : Proc) :
    reap_background_processes.loop os rem.length (rem ++ acc)
        { s with background_pids := some (rem ++ acc) } =
      .ret () { s with background_pids := some (acc ++ stillRunning os s.npoll rem),
                       npoll := s.npoll + rem.length,
                       trace := s.trace ++ sweepChecks os s.npoll rem } := by
  induction rem generalizing acc s with
  | nil => simp [reap_background_processes.loop, stillRunning, sweepChecks]
  | cons pid rem ih =>
    simp only [List.length_cons, List.cons_append, reap_background_processes.loop, deq_head_get,
      bind_run, modifyProc_run, waitpid_nohang_run, deq_tail_put]
    by_cases h : os.waitpid_nohang s.npoll pid = 0
    · have := ih (acc ++ [pid])
        { s with npoll := s.npoll + 1,
                 trace := s.trace ++ [.poll pid (os.waitpid_nohang s.npoll pid)] }
      simp only [h, ↓reduceIte, List.append_assoc, bind_run, modifyProc_run] at this ⊢
      rw [this]
      simp [stillRunning, sweepChecks, h, Nat.add_assoc, Nat.add_comm 1]
    · have := ih acc
        { s with npoll := s.npoll + 1,
                 trace := s.trace ++ [.poll pid (os.waitpid_nohang s.npoll pid)] }
      simp only [h, ↓reduceIte] at this ⊢
      rw [this]
      simp [stillRunning, sweepChecks, h, Nat.add_assoc, Nat.add_comm 1]

theorem stillRunning_sublist (os : OS) (k : Nat) (q : List Int) :
    (stillRunning os k q).Sublist q := by
  induction q generalizing k with
  | nil => simp [stillRunning]
  | cons pid q ih =>
    simp only [stillRunning]
    split
    · exact (ih (k + 1)).cons₂ pid
    · exact (ih (k + 1)).cons pid

theorem stillRunning_not_mem (os : OS) (k : Nat) (q : List Int) (hq : q.Nodup)
    (i : Nat) (hi : i < q.length) (hres : os.waitpid_nohang (k + i) (q.get ⟨i, hi⟩) ≠ 0) :
    q.get ⟨i, hi⟩ ∉ stillRunning os k q := by
  induction q generalizing k i with
  | nil => simp at hi
  | cons pid q ih =>
    rw [List.nodup_cons] at hq
    cases i with
    | zero =>
      simp only [List.get_eq_getElem, List.getElem_cons_zero, Nat.add_zero] at hres ⊢
      simp only [stillRunning, hres, if_false]
      exact fun hmem => hq.1 ((stillRunning_sublist os (k + 1) q).subset hmem)
    | succ i =>
      have hi2 : i < q.length := by simpa using hi
      have hres2 : os.waitpid_nohang (k + 1 + i) (q.get ⟨i, hi2⟩) ≠ 0 := by
        simpa [Nat.add_assoc, Nat.add_comm 1] using hres
      have := ih (k + 1) hq.2 i hi2 hres2
      simp only [List.get_eq_getElem, List.getElem_cons_succ] at this ⊢
      simp only [stillRunning]
      split
      · simp only [List.mem_cons, not_or]
        refine ⟨?_, this⟩
        intro heq
        exact hq.1 (heq ▸ List.getElem_mem _)
      · exact this

theorem stillRunning_eq_filter (os : OS) (k : Nat) (q : List Int) :
    stillRunning os k q =
      ((q.enumFrom k).filter fun x => decide (os.waitpid_nohang x.1 x.2 = 0)).map Prod.snd := by
  induction q generalizing k with
  | nil => rfl
  | cons pid q ih =>
    simp only [stillRunning, List.enumFrom_cons, List.filter_cons]
    by_cases h : os.waitpid_nohang k pid = 0 <;> simp [h, ih]

theorem sweepChecks_eq_map (os : OS) (k : Nat) (q : List Int) :
    sweepChecks os k q =
      (q.enumFrom k).map fun x => Event.poll x.2 (os.waitpid_nohang x.1 x.2) := by
  induction q generalizing k with
  | nil => rfl
  | cons pid q ih => simp [sweepChecks, List.enumFrom_cons, ih]

theorem bi_cd_dash (os : OS) (r : Command) (eof : Int) (s : Proc) (name : String)
    (hargv : r.argv = [name, "-"]) :
    bi_cd os r eof s =
      .ret eof { s with cwd := s.owd, owd := s.cwd, cwd_freed := s.owd_freed,
                        owd_freed := s.cwd_freed } := by
  have h1 : (r.argv.length : Int) = 1 + 1 := by simp [hargv]
  simp [bi_cd, builtin_args_ok os r 1 _ h1, hargv]

theorem bi_cd_success (os : OS) (r : Command) (eof : Int) (s : Proc) (name arg d : String)
    (hargv : r.argv = [name, arg]) (harg : arg ≠ "-") (hok : os.chdir s.osdir arg = some d)
    (hshared : s.shared = false) (hcwd : s.cwd_freed = false) (howd : s.owd_freed = false) :
    bi_cd os r eof s =
      .ret eof { s with owd := s.cwd, cwd := os.getcwd d, osdir := d,
                        trace := s.trace ++ [.chdir arg true] } := by
  have h1 : (r.argv.length : Int) = 1 + 1 := by simp [hargv]
  cases hq : s.owd <;>
    simp [bi_cd, builtin_args_ok os r 1 _ h1, hargv, harg, hok, hq, hshared, hcwd, howd]

theorem builtin_cd (os : OS) (r : Command) (eof : Int) (s : Proc) (h : r.file = "cd") :
    builtin os r eof s = (do let eof1 ← bi_cd os r eof; pure (1, eof1)) s := by
  simp [builtin, builtins, builtin.loop, h]

theorem builtin_loop_not_found (os : OS) (r : Command) (eof : Int) (s : Proc)
    (table : List (String × (OS → Command → Int → Run Int)))
    (h : ∀ b ∈ table, r.file ≠ b.1) : builtin.loop os r eof table s = .ret (0, eof) s := by
  induction table with
  | nil => rfl
  | cons b table ih =>
    obtain ⟨name, f⟩ := b
    have h1 : r.file ≠ name := h (name, f) (by simp)
    simp only [builtin.loop, h1, if_false]
    exact ih fun b hb => h b (by simp [hb])

theorem builtin_not_builtin (os : OS) (r : Command) (eof : Int) (s : Proc)
    (h : r.file ∉ builtinNames) : builtin os r eof s = .ret (0, eof) s := by
  apply builtin_loop_not_found
  intro b hb heq
  apply h
  simp only [builtins, List.mem_cons, List.mem_singleton, List.not_mem_nil, or_false] at hb
  rcases hb with rfl | rfl | rfl | rfl <;> simp [builtinNames, heq]

/-! ## Quiet code -/

theorem Quiet.refl (s : Proc) : Quiet s s := ⟨rfl, rfl, rfl, [], by simp, by simp⟩

theorem Quiet.trans {s s1 s2 : Proc} (h1 : Quiet s s1) (h2 : Quiet s1 s2) : Quiet s s2 := by
  obtain ⟨a1, b1, c1, e1, t1, q1⟩ := h1
  obtain ⟨a2, b2, c2, e2, t2, q2⟩ := h2
  refine ⟨a2.trans a1, b2.trans b1, c2.trans c1, e1 ++ e2, by rw [t2, t1, List.append_assoc], ?_⟩
  intro e he
  rcases List.mem_append.1 he with h | h
  · exact q1 e h
  · exact q2 e h

theorem Quiet.event (s : Proc) (e : Event) (h : Event.quiet e = true) :
    Quiet s { s with trace := s.trace ++ [e] } :=
  ⟨rfl, rfl, rfl, [e], rfl, by simpa using h⟩

theorem RunQuiet.pure {α : Type} (a : α) : RunQuiet (pure a : Run α) := ⟨fun s => Quiet.refl s⟩

theorem RunQuiet.halt {α : Type} (st : Status) : RunQuiet (halt st : Run α) :=
  ⟨fun s => Quiet.refl s⟩

theorem RunQuiet.bind {α β : Type} {x : Run α} {f : α → Run β} (hx : RunQuiet x)
    (hf : ∀ a, RunQuiet (f a)) : RunQuiet (x >>= f) := by
  refine ⟨fun s => ?_⟩
  have h := hx.run s
  simp only [bind_run]
  cases hxs : x s with
  | ret a s1 =>
    rw [hxs] at h
    exact Quiet.trans h ((hf a).run s1)
  | stop st s1 =>
    rw [hxs] at h
    exact h

theorem RunQuiet.ite {α : Type} {c : Prop} [Decidable c] {x y : Run α} (hx : RunQuiet x)
    (hy : RunQuiet y) : RunQuiet (if c then x else y) := by
  split
  · exact hx
  · exact hy

theorem RunQuiet.getProc : RunQuiet getProc := ⟨fun s => Quiet.refl s⟩

theorem RunQuiet.modifyProc {f : Proc → Proc} (h : ∀ s, Quiet s (f s)) :
    RunQuiet (modifyProc f) := ⟨fun s => h s⟩

theorem RunQuiet.emit {e : Event} (h : Event.quiet e = true) : RunQuiet (emit e) :=
  ⟨fun s => Quiet.event s e h⟩

theorem RunQuiet.ERROR (os : OS) (msg : String) : RunQuiet (ERROR os msg) :=
  RunQuiet.bind (RunQuiet.emit rfl) fun _ => RunQuiet.ite (RunQuiet.halt _) (RunQuiet.pure _)

theorem RunQuiet.printf (text : String) : RunQuiet (printf text) := RunQuiet.emit rfl

theorem RunQuiet.getcwd (os : OS) : RunQuiet (getcwd os) := ⟨fun s => Quiet.refl s⟩

theorem RunQuiet.chdir (os : OS) (path : String) : RunQuiet (chdir os path) := by
  refine ⟨fun s => ?_⟩
  simp only [chdir_run]
  cases os.chdir s.osdir path with
  | none => exact Quiet.event s _ rfl
  | some d => exact ⟨rfl, rfl, rfl, [.chdir path true], rfl, by simp [Event.quiet]⟩

theorem RunQuiet.builtin_args (os : OS) (r : Command) (n : Int) :
    RunQuiet (builtin_args os r n) :=
  RunQuiet.ite (RunQuiet.ERROR os _) (RunQuiet.pure _)

theorem RunQuiet.bi_pwd (os : OS) (r : Command) (eof : Int) : RunQuiet (bi_pwd os r eof) := by
  simp only [Shell.bi_pwd]
  repeat' first
    | exact RunQuiet.pure _
    | exact RunQuiet.halt _
    | exact RunQuiet.getProc
    | exact RunQuiet.getcwd _
    | exact RunQuiet.printf _
    | exact RunQuiet.chdir _ _
    | exact RunQuiet.ERROR _ _
    | exact RunQuiet.builtin_args _ _ _
    | exact RunQuiet.modifyProc fun s => ⟨rfl, rfl, rfl, [], by simp, by simp⟩
    | apply RunQuiet.bind
    | apply RunQuiet.ite
    | intro _

theorem RunQuiet.bi_history_loop (os : OS) (l : List String) (i : Int) :
    RunQuiet (bi_history.loop os l i) := by
  induction l generalizing i with
  | nil => exact RunQuiet.pure _
  | cons line l ih => exact RunQuiet.bind (RunQuiet.printf _) fun _ => ih (i + 1)

theorem RunQuiet.bi_history (os : OS) (r : Command) (eof : Int) :
    RunQuiet (bi_history os r eof) :=
  RunQuiet.bind (RunQuiet.builtin_args os r 0) fun _ =>
    RunQuiet.bind RunQuiet.getProc fun s =>
      RunQuiet.bind (RunQuiet.bi_history_loop os s.history 0) fun _ => RunQuiet.pure _

theorem RunQuiet.bi_cd (os : OS) (r : Command) (eof : Int) : RunQuiet (bi_cd os r eof) := by
  simp only [Shell.bi_cd]
  repeat' first
    | exact RunQuiet.pure _
    | exact RunQuiet.halt _
    | exact RunQuiet.getProc
    | exact RunQuiet.getcwd _
    | exact RunQuiet.printf _
    | exact RunQuiet.chdir _ _
    | exact RunQuiet.ERROR _ _
    | exact RunQuiet.builtin_args _ _ _
    | exact RunQuiet.modifyProc fun s => ⟨rfl, rfl, rfl, [], by simp, by simp⟩
    | apply RunQuiet.bind
    | apply RunQuiet.ite
    | intro _
    | split

theorem Quiet.builtinEffect {s s1 : Proc} (name : String) (h : Quiet s s1) :
    BuiltinEffect name s s1 := by
  obtain ⟨h1, h2, h3, evs, h4, h5⟩ := h
  refine ⟨h1, h2, ⟨evs, h4, ?_, ?_⟩, by rw [h3]; exact fun _ h => h⟩
  · intro pid hm; simpa [Event.quiet] using h5 _ hm
  · intro pid hm; simpa [Event.quiet] using h5 _ hm

theorem builtin_args_cases (os : OS) (r : Command) (n : Int) (s : Proc) :
    builtin_args os r n s = .ret () s ∨
    builtin_args os r n s = .ret ()
      { s with trace := s.trace ++ [.error "wrong number of arguments to builtin command"] } ∨
    builtin_args os r n s = .stop (.exited 1)
      { s with trace := s.trace ++ [.error "wrong number of arguments to builtin command"] } := by
  unfold builtin_args ERROR
  by_cases h1 : builtin_args.loop r.argv (n + 1) = 0 <;> cases h2 : os.errorExits <;>
    simp [h1, h2]

theorem bi_exit_effect (os : OS) (r : Command) (eof : Int) (s : Proc) :
    BuiltinEffect "exit" s (bi_exit os r eof s).state := by
  unfold BuiltinEffect
  simp only [bi_exit, bind_run]
  rcases builtin_args_cases os r 0 s with h | h | h <;> rw [h] <;>
    cases h3 : s.background_pids <;>
    simp [h3, Res.state, bi_exit_loop_run] <;>
    split <;> simp_all

theorem builtin_effect (os : OS) (r : Command) (eof : Int) (s : Proc)
    (hb : r.file ∈ builtinNames) :
    BuiltinEffect r.file s (builtin os r eof s).state := by
  simp only [builtinNames, List.mem_cons, List.mem_singleton, List.not_mem_nil, or_false] at hb
  rcases hb with h | h | h | h
  · have := bi_exit_effect os r eof s
    rw [h]
    cases hx : bi_exit os r eof s <;>
      simpa [builtin, builtins, builtin.loop, h, hx, Res.state] using this
  · have := (RunQuiet.bi_pwd os r eof).run s
    rw [h]
    cases hx : bi_pwd os r eof s <;> rw [hx] at this <;>
      simpa [builtin, builtins, builtin.loop, h, hx, Res.state] using this.builtinEffect "pwd"
  · have := (RunQuiet.bi_cd os r eof).run s
    rw [h]
    cases hx : bi_cd os r eof s <;> rw [hx] at this <;>
      simpa [builtin, builtins, builtin.loop, h, hx, Res.state] using this.builtinEffect "cd"
  · have := (RunQuiet.bi_history os r eof).run s
    rw [h]
    cases hx : bi_history os r eof s <;> rw [hx] at this <;>
      simpa [builtin, builtins, builtin.loop, h, hx, Res.state] using this.builtinEffect "history"

theorem builtin_value (os : OS) (r : Command) (eof : Int) (s : Proc)
    (hb : r.file ∈ builtinNames) (v : Int × Int) (s1 : Proc)
    (h : builtin os r eof s = .ret v s1) : v.1 = 1 := by
  simp only [builtinNames, List.mem_cons, List.mem_singleton, List.not_mem_nil, or_false] at hb
  rcases hb with hf | hf | hf | hf
  · cases hx : bi_exit os r eof s <;>
      simp [builtin, builtins, builtin.loop, hf, hx] at h
    rw [← h.1]
  · cases hx : bi_pwd os r eof s <;>
      simp [builtin, builtins, builtin.loop, hf, hx] at h
    rw [← h.1]
  · cases hx : bi_cd os r eof s <;>
      simp [builtin, builtins, builtin.loop, hf, hx] at h
    rw [← h.1]
  · cases hx : bi_history os r eof s <;>
      simp [builtin, builtins, builtin.loop, hf, hx] at h
    rw [← h.1]

/-! ## The descriptor table -/

theorem getFd_nil (fd : Nat) : getFd [] fd = none := by simp [getFd]

theorem getFd_cons_zero (x : Option File) (t : List (Option File)) : getFd (x :: t) 0 = x := by
  simp [getFd]

theorem getFd_cons_succ (x : Option File) (t : List (Option File)) (fd : Nat) :
    getFd (x :: t) (fd + 1) = getFd t fd := by
  simp [getFd]

theorem getFd_setFd_same (t : List (Option File)) (fd : Nat) (f : Option File) :
    getFd (setFd t fd f) fd = f := by
  induction t generalizing fd with
  | nil =>
    induction fd with
    | zero => simp [setFd, getFd_cons_zero]
    | succ fd ih => simp [setFd, getFd_cons_succ, ih]
  | cons x t ih =>
    cases fd with
    | zero => simp [setFd, getFd_cons_zero]
    | succ fd => simp [setFd, getFd_cons_succ, ih]

theorem getFd_setFd_other (t : List (Option File)) (fd fd2 : Nat) (f : Option File)
    (h : fd2 ≠ fd) : getFd (setFd t fd f) fd2 = getFd t fd2 := by
  induction t generalizing fd fd2 with
  | nil =>
    induction fd generalizing fd2 with
    | zero =>
      cases fd2 with
      | zero => exact absurd rfl h
      | succ fd2 => simp [setFd, getFd_cons_succ, getFd_nil]
    | succ fd ih =>
      cases fd2 with
      | zero => simp [setFd, getFd_cons_zero, getFd_nil]
      | succ fd2 =>
        simp only [setFd, getFd_cons_succ]
        rw [ih fd2 (by omega)]
        simp [getFd_nil]
  | cons x t ih =>
    cases fd with
    | zero =>
      cases fd2 with
      | zero => exact absurd rfl h
      | succ fd2 => simp [setFd, getFd_cons_succ]
    | succ fd =>
      cases fd2 with
      | zero => simp [setFd, getFd_cons_zero]
      | succ fd2 =>
        simp only [setFd, getFd_cons_succ]
        exact ih fd fd2 (by omega)

theorem getFd_lowestFree (t : List (Option File)) : getFd t (lowestFree t) = none := by
  induction t with
  | nil => simp [lowestFree, getFd_nil]
  | cons x t ih =>
    cases x with
    | none => simp [lowestFree, getFd_cons_zero]
    | some f => simp [lowestFree, getFd_cons_succ, ih]

theorem lowestFree_ne (t : List (Option File)) (fd : Nat) (f : File)
    (h : getFd t fd = some f) : lowestFree t ≠ fd := by
  intro heq
  rw [← heq, getFd_lowestFree] at h
  cases h

/-! ## Pipelines run by the shell -/

theorem launched_succ (os : OS) (a k : Nat) :
    launched os a (k + 1) = os.fork a :: launched os (a + 1) k := by
  simp [launched, List.range_succ_eq_map, Function.comp_def, Nat.add_assoc, Nat.add_comm 1]

@[simp] theorem pipe_run_ok (os : OS) (s : Proc) (h : os.pipe_ok s.npipe = true) :
    pipe os s = .ret (some (lowestFree s.fds,
        lowestFree (setFd s.fds (lowestFree s.fds) (some (.pipeRead s.npipe)))))
      { s with fds := setFd (setFd s.fds (lowestFree s.fds) (some (.pipeRead s.npipe)))
                 (lowestFree (setFd s.fds (lowestFree s.fds) (some (.pipeRead s.npipe))))
                 (some (.pipeWrite s.npipe)),
               npipe := s.npipe + 1,
               trace := s.trace ++ [.pipe (lowestFree s.fds)
                 (lowestFree (setFd s.fds (lowestFree s.fds) (some (.pipeRead s.npipe))))] } := by
  simp [pipe, h]

theorem createPipes_run (os : OS) (hok : ∀ k, os.pipe_ok k = true) (k : Nat) (s : Proc) :
    ∃ ps t evs, execute.createPipes os k s =
        .ret ps { s with fds := t, npipe := s.npipe + k, trace := s.trace ++ evs } ∧
      ps.length = k ∧ (∀ e ∈ evs, ∃ r w, e = Event.pipe r w) ∧
      (∀ fd f, getFd s.fds fd = some f → getFd t fd = some f) ∧
      (∀ j, j < k → ∃ r w, ps[j]? = some (some (r, w)) ∧
        getFd s.fds r = none ∧ getFd s.fds w = none ∧
        getFd t r = some (.pipeRead (s.npipe + j)) ∧
        getFd t w = some (.pipeWrite (s.npipe + j))) := by
  induction k generalizing s with
  | zero =>
    refine ⟨[], s.fds, [], ?_, rfl, by simp, fun _ _ h => h, fun j hj => absurd hj (by omega)⟩
    cases s; simp [execute.createPipes]
  | succ k ih =>
    let r := lowestFree s.fds
    let t1 := setFd s.fds r (some (.pipeRead s.npipe))
    let w := lowestFree t1
    let t2 := setFd t1 w (some (.pipeWrite s.npipe))
    have hr : getFd s.fds r = none := getFd_lowestFree _
    have hw1 : getFd t1 w = none := getFd_lowestFree _
    have hr1 : getFd t1 r = some (.pipeRead s.npipe) := getFd_setFd_same _ _ _
    have hwr : w ≠ r := fun h => by rw [h, hr1] at hw1; cases hw1
    have hw : getFd s.fds w = none := by
      rw [← getFd_setFd_other s.fds r w (some (.pipeRead s.npipe)) hwr]; exact hw1
    have hr2 : getFd t2 r = some (.pipeRead s.npipe) := by
      rw [getFd_setFd_other t1 w r _ (Ne.symm hwr)]; exact hr1
    have hw2 : getFd t2 w = some (.pipeWrite s.npipe) := getFd_setFd_same _ _ _
    have hpres : ∀ fd f, getFd s.fds fd = some f → getFd t2 fd = some f := by
      intro fd f h
      have h1 : fd ≠ r := fun e => by rw [e, hr] at h; cases h
      have h2 : fd ≠ w := fun e => by rw [e, hw] at h; cases h
      rw [getFd_setFd_other t1 w fd _ h2, getFd_setFd_other s.fds r fd _ h1]; exact h
    obtain ⟨ps, t, evs, hrun, hlen, hevs, hkeep, hpipes⟩ := ih
      { s with fds := t2, npipe := s.npipe + 1, trace := s.trace ++ [.pipe r w] }
    refine ⟨some (r, w) :: ps, t, Event.pipe r w :: evs, ?_, by simp [hlen], ?_, ?_, ?_⟩
    · simp only [execute.createPipes, bind_run, pipe_run_ok os s (hok _)]
      simp only [Option.isNone_some, Bool.false_eq_true, if_false, pure_run]
      simp only [r, t1, w, t2] at hrun
      simp only [bind_run, pure_run, hrun]
      simp [r, t1, w, Nat.add_assoc, Nat.add_comm 1]
    · intro e he
      rcases List.mem_cons.1 he with h | h
      · exact ⟨r, w, h⟩
      · exact hevs e h
    · intro fd f h
      exact hkeep fd f (hpres fd f h)
    · intro j hj
      cases j with
      | zero =>
        exact ⟨r, w, by simp, hr, hw, by simpa using hkeep r _ hr2, by simpa using hkeep w _ hw2⟩
      | succ j =>
        obtain ⟨r2, w2, hget, hfr, hfw, hgr, hgw⟩ := hpipes j (by omega)
        refine ⟨r2, w2, by simpa using hget, ?_, ?_, ?_, ?_⟩
        · cases hx : getFd s.fds r2 with
          | none => rfl
          | some f => rw [hpres r2 f hx] at hfr; cases hfr
        · cases hx : getFd s.fds w2 with
          | none => rfl
          | some f => rw [hpres w2 f hx] at hfw; cases hfw
        · simpa [Nat.add_assoc, Nat.add_comm 1] using hgr
        · simpa [Nat.add_assoc, Nat.add_comm 1] using hgw

theorem forkAll_shell (os : OS) (hfork : ∀ k, 0 < os.fork k) (r : Pipeline)
    (pipes : List (Option (Nat × Nat))) (n k i : Nat) (s : Proc) :
    execute.forkAll os r pipes n k i s =
      .ret (launched os s.nfork k)
        { s with nfork := s.nfork + k,
                 trace := s.trace ++ (launched os s.nfork k).map Event.fork } := by
  induction k generalizing i s with
  | zero => cases s; simp [execute.forkAll, launched]
  | succ k ih =>
    have h1 : os.fork s.nfork ≠ -1 := by have := hfork s.nfork; omega
    have h0 : os.fork s.nfork ≠ 0 := by have := hfork s.nfork; omega
    simp [execute.forkAll, h1, h0, ih, launched_succ, Nat.add_assoc, Nat.add_comm 1]

theorem waitAll_run (pids : List Int) (s : Proc) :
    execute.waitAll pids s = .ret () { s with trace := s.trace ++ pids.map Event.wait } := by
  induction pids generalizing s with
  | nil => cases s; simp [execute.waitAll]
  | cons pid pids ih => simp [execute.waitAll, ih]

theorem pipeAt_run (pipes : List (Option (Nat × Nat))) (j r w : Nat) (s : Proc)
    (h : pipes[j]? = some (some (r, w))) : execute.pipeAt pipes j s = .ret (r, w) s := by
  simp [execute.pipeAt, h]

theorem closePipes_run (pipes : List (Option (Nat × Nat))) (k j0 : Nat) (s : Proc)
    (hp : ∀ j, j < j0 + k → ∃ r w, pipes[j]? = some (some (r, w))) :
    ∃ t evs, execute.closePipes pipes k j0 s =
        .ret () { s with fds := t, trace := s.trace ++ evs } ∧
      (∀ e ∈ evs, ∃ fd, e = Event.close fd) ∧
      (∀ fd, (∀ (j r w : Nat), pipes[j]? = some (some (r, w)) → fd ≠ r ∧ fd ≠ w) →
        getFd t fd = getFd s.fds fd) := by
  induction k generalizing j0 s with
  | zero =>
    refine ⟨s.fds, [], ?_, by simp, fun _ _ => rfl⟩
    cases s; simp [execute.closePipes]
  | succ k ih =>
    obtain ⟨r, w, hget⟩ := hp j0 (by omega)
    obtain ⟨t, evs, hrun, hevs, hkeep⟩ := ih (j0 + 1)
      { s with fds := setFd (setFd s.fds r none) w none,
               trace := s.trace ++ [.close r] ++ [.close w] }
      (fun j hj => hp j (by omega))
    refine ⟨t, Event.close r :: Event.close w :: evs, ?_, ?_, ?_⟩
    · simp only [execute.closePipes, pipeAt_run pipes j0 r w s hget, bind_run, pure_run,
        close_run]
      simp only [List.append_assoc] at hrun ⊢
      rw [hrun]
      simp
    · intro e he
      simp only [List.mem_cons] at he
      rcases he with h | h | h
      · exact ⟨r, h⟩
      · exact ⟨w, h⟩
      · exact hevs e h
    · intro fd hfd
      obtain ⟨h1, h2⟩ := hfd j0 r w hget
      rw [hkeep fd hfd]
      simp only
      rw [getFd_setFd_other _ w fd _ h2, getFd_setFd_other _ r fd _ h1]

theorem execute_single_launch (os : OS) (p : Pipeline) (r : Command) (jobbed eof : Int)
    (s : Proc)
    (hp : p.processes = [r])
    (hnb : ¬ (p.fg = true ∧ r.file ∈ builtinNames))
    (hfork : 0 < os.fork s.nfork) :
    execute os p jobbed eof s = .ret (if jobbed = 0 then 1 else jobbed, eof)
      { s with jobs := if jobbed = 0 then s.jobs ++ [p] else s.jobs,
               nfork := s.nfork + 1,
               background_pids :=
                 if p.fg then s.background_pids
                 else some (s.background_pids.getD [] ++ [os.fork s.nfork]),
               trace := s.trace ++ [.fork (os.fork s.nfork)] ++
                 (if p.fg then [.wait (os.fork s.nfork)] else []) } := by
  have h1 : os.fork s.nfork ≠ -1 := by omega
  have h0 : os.fork s.nfork ≠ 0 := by omega
  cases hfg : p.fg with
  | true =>
    have hb : r.file ∉ builtinNames := fun h => hnb ⟨hfg, h⟩
    by_cases hj : jobbed = 0 <;>
      simp [execute, sizePipeline, deq_len, deq_head_ith, hp, execCommand, hfg,
        builtin_not_builtin os r eof s hb, h1, h0, hj]
  | false =>
    by_cases hj : jobbed = 0 <;>
      cases hq : s.background_pids <;>
      simp [execute, sizePipeline, deq_len, deq_head_ith, hp, execCommand, hfg, h1, h0, hq,
        deq_new, deq_tail_put, hj]

theorem execute_multi_shell (os : OS) (p : Pipeline) (jobbed eof : Int) (s : Proc)
    (hn : 2 ≤ p.processes.length)
    (hfork : ∀ k, 0 < os.fork k) (hpipe : ∀ k, os.pipe_ok k = true) :
    ∃ t pre mid, execute os p jobbed eof s = .ret (if jobbed = 0 then 1 else jobbed, eof)
        { s with jobs := if jobbed = 0 then s.jobs ++ [p] else s.jobs,
                 fds := t,
                 nfork := s.nfork + p.processes.length,
                 npipe := s.npipe + (p.processes.length - 1),
                 trace := s.trace ++ pre ++
                   (launched os s.nfork p.processes.length).map Event.fork ++ mid ++
                   (if p.fg then (launched os s.nfork p.processes.length).map Event.wait
                    else []) } ∧
      (∀ e ∈ pre, ∃ r w, e = Event.pipe r w) ∧ (∀ e ∈ mid, ∃ fd, e = Event.close fd) := by
  obtain ⟨ps, t1, pre, hcreate, hlen, hpre, -, hpipes⟩ :=
    createPipes_run os hpipe (p.processes.length - 1) s
  have hsome : ∀ j, j < 0 + (p.processes.length - 1) → ∃ r w, ps[j]? = some (some (r, w)) := by
    intro j hj
    obtain ⟨r, w, h, -⟩ := hpipes j (by omega)
    exact ⟨r, w, h⟩
  have hn1 : p.processes.length ≠ 1 := by omega
  have hn0 : p.processes.length ≠ 0 := by omega
  by_cases hj : jobbed = 0
  · obtain ⟨t, mid, hclose, hmid, -⟩ := closePipes_run ps (p.processes.length - 1) 0
      { s with jobs := s.jobs ++ [p], fds := t1, nfork := s.nfork + p.processes.length,
               npipe := s.npipe + (p.processes.length - 1),
               trace := s.trace ++ pre ++
                 (launched os s.nfork p.processes.length).map Event.fork } hsome
    refine ⟨t, pre, mid, ?_, hpre, hmid⟩
    simp only [execute, sizePipeline, deq_len, hn1, hn0, if_false, bind_run, pure_run, hcreate,
      hj, if_true, addJobs_run, forkAll_shell os hfork, hclose]
    cases hfg : p.fg <;> simp [waitAll_run]
  · obtain ⟨t, mid, hclose, hmid, -⟩ := closePipes_run ps (p.processes.length - 1) 0
      { s with fds := t1, nfork := s.nfork + p.processes.length,
               npipe := s.npipe + (p.processes.length - 1),
               trace := s.trace ++ pre ++
                 (launched os s.nfork p.processes.length).map Event.fork } hsome
    refine ⟨t, pre, mid, ?_, hpre, hmid⟩
    simp only [execute, sizePipeline, deq_len, hn1, hn0, if_false, bind_run, pure_run, hcreate,
      hj, forkAll_shell os hfork, hclose]
    cases hfg : p.fg <;> simp [waitAll_run]

/-- A pipeline of two or more commands never touches the registry, whether it
is foreground or background. -/
theorem execute_multi_registry (os : OS) (p : Pipeline) (jobbed eof : Int) (s : Proc)
    (hn : 2 ≤ p.processes.length)
    (hfork : ∀ k, 0 < os.fork k) (hpipe : ∀ k, os.pipe_ok k = true) :
    (execute os p jobbed eof s).state.background_pids = s.background_pids := by
  obtain ⟨t, pre, mid, hrun, -, -⟩ := execute_multi_shell os p jobbed eof s hn hfork hpipe
  rw [hrun]
  rfl

/-! ## The child of a pipeline -/

theorem Wired.mono {t t2 : List (Option File)} {base m : Nat}
    {pipes : List (Option (Nat × Nat))} (h : Wired t base pipes m)
    (hkeep : ∀ fd f, fd ≠ 0 → fd ≠ 1 → getFd t fd = some f → getFd t2 fd = some f) :
    Wired t2 base pipes m := by
  intro j hj
  obtain ⟨r, w, hget, hr0, hr1, hw0, hw1, hr, hw⟩ := h j hj
  exact ⟨r, w, hget, hr0, hr1, hw0, hw1, hkeep r _ hr0 hr1 hr, hkeep w _ hw0 hw1 hw⟩

theorem dup2_run (oldfd newfd : Nat) (f : File) (s : Proc) (h : getFd s.fds oldfd = some f) :
    dup2 oldfd newfd s = .ret (newfd : Int) { s with fds := setFd s.fds newfd (some f) } := by
  simp [dup2, h]

theorem sys_open_run (os : OS) (path : String) (write : Bool) (s : Proc)
    (h : os.canOpen path write = true) :
    sys_open os path write s = .ret (some (lowestFree s.fds))
      { s with fds := setFd s.fds (lowestFree s.fds)
                 (some (if write then .output path else .input path)) } := by
  simp [sys_open, h]

/-- The table after `open`, `dup2(fd, target)`, `close(fd)`. -/
theorem redirect_table (t : List (Option File)) (target : Nat) (x : File) (f0 : File)
    (h : getFd t target = some f0) :
    getFd (setFd (setFd (setFd t (lowestFree t) (some x)) target (some x)) (lowestFree t) none)
        target = some x ∧
    ∀ fd f, fd ≠ target → getFd t fd = some f →
      getFd (setFd (setFd (setFd t (lowestFree t) (some x)) target (some x)) (lowestFree t) none)
        fd = some f := by
  have hne : lowestFree t ≠ target := lowestFree_ne t target f0 h
  constructor
  · rw [getFd_setFd_other _ _ _ _ (Ne.symm hne), getFd_setFd_same]
  · intro fd f hfd hopen
    have hne2 : lowestFree t ≠ fd := lowestFree_ne t fd f hopen
    rw [getFd_setFd_other _ _ _ _ (Ne.symm hne2), getFd_setFd_other _ _ _ _ hfd,
      getFd_setFd_other _ _ _ _ (Ne.symm hne2)]
    exact hopen

theorem pipeToStdin_run (os : OS) (pipes : List (Option (Nat × Nat))) (base m i : Nat)
    (s : Proc) (hw : Wired s.fds base pipes m) (hi : i ≤ m) :
    ∃ s1, execute.pipeToStdin os pipes i s = .ret () s1 ∧ Wired s1.fds base pipes m ∧
      getFd s1.fds 0 =
        (if 0 < i then some (.pipeRead (base + (i - 1))) else getFd s.fds 0) ∧
      getFd s1.fds 1 = getFd s.fds 1 := by
  by_cases h0 : 0 < i
  · obtain ⟨r, w, hget, hr0, hr1, hw0, hw1, hr, hw2⟩ := hw (i - 1) (by omega)
    refine ⟨{ s with fds := setFd s.fds 0 (some (.pipeRead (base + (i - 1)))) }, ?_, ?_, ?_, ?_⟩
    · simp [execute.pipeToStdin, h0, pipeAt_run pipes (i - 1) r w s hget, dup2_run r 0 _ s hr]
    · exact hw.mono fun fd f h0 _ h => by
        simpa [getFd_setFd_other _ 0 fd _ h0] using h
    · simp [h0, getFd_setFd_same]
    · simp [getFd_setFd_other]
  · exact ⟨s, by simp [execute.pipeToStdin, h0], hw, by simp [h0], rfl⟩

theorem pipeToStdout_run (os : OS) (pipes : List (Option (Nat × Nat))) (base m n i : Nat)
    (s : Proc) (hw : Wired s.fds base pipes m) (hi : i + 1 < n → i < m) :
    ∃ s1, execute.pipeToStdout os pipes n i s = .ret () s1 ∧ Wired s1.fds base pipes m ∧
      getFd s1.fds 0 = getFd s.fds 0 ∧
      getFd s1.fds 1 =
        (if i + 1 < n then some (.pipeWrite (base + i)) else getFd s.fds 1) := by
  by_cases h0 : i + 1 < n
  · obtain ⟨r, w, hget, hr0, hr1, hw0, hw1, hr, hw2⟩ := hw i (hi h0)
    refine ⟨{ s with fds := setFd s.fds 1 (some (.pipeWrite (base + i))) }, ?_, ?_, ?_, ?_⟩
    · simp [execute.pipeToStdout, h0, pipeAt_run pipes i r w s hget, dup2_run w 1 _ s hw2]
    · exact hw.mono fun fd f _ h1 h => by
        simpa [getFd_setFd_other _ 1 fd _ h1] using h
    · simp [getFd_setFd_other]
    · simp [h0, getFd_setFd_same]
  · exact ⟨s, by simp [execute.pipeToStdout, h0], hw, rfl, by simp [h0]⟩

theorem fileToStdin_run (os : OS) (pipes : List (Option (Nat × Nat))) (base m : Nat)
    (input : Option String) (s : Proc) (x0 x1 : File) (hw : Wired s.fds base pipes m)
    (h0 : getFd s.fds 0 = some x0) (h1 : getFd s.fds 1 = some x1)
    (hopen : ∀ path, input = some path → os.canOpen path false = true) :
    ∃ s1, execute.fileToStdin os input s = .ret () s1 ∧ Wired s1.fds base pipes m ∧
      getFd s1.fds 0 = some ((input.map File.input).getD x0) ∧
      getFd s1.fds 1 = some x1 := by
  cases input with
  | none => exact ⟨s, by simp [execute.fileToStdin], hw, h0, h1⟩
  | some path =>
    obtain ⟨ht, hkeep⟩ := redirect_table s.fds 0 (.input path) x0 h0
    refine ⟨{ s with
        fds := setFd (setFd (setFd s.fds (lowestFree s.fds) (some (.input path))) 0
          (some (.input path))) (lowestFree s.fds) none
        trace := s.trace ++ [.close (lowestFree s.fds)] }, ?_, ?_, ht, hkeep 1 x1 (by omega) h1⟩
    · have hd := dup2_run (lowestFree s.fds) 0 (.input path)
        { s with fds := setFd s.fds (lowestFree s.fds) (some (.input path)) }
        (getFd_setFd_same _ _ _)
      simp only [execute.fileToStdin, bind_run, sys_open_run os path false s (hopen path rfl)]
      simp only [Bool.false_eq_true, if_false] at hd ⊢
      simp [hd]
    · exact hw.mono fun fd f hf0 _ h => hkeep fd f hf0 h

theorem fileToStdout_run (os : OS) (pipes : List (Option (Nat × Nat))) (base m : Nat)
    (output : Option String) (s : Proc) (x0 x1 : File) (hw : Wired s.fds base pipes m)
    (h0 : getFd s.fds 0 = some x0) (h1 : getFd s.fds 1 = some x1)
    (hopen : ∀ path, output = some path → os.canOpen path true = true) :
    ∃ s1, execute.fileToStdout os output s = .ret () s1 ∧ Wired s1.fds base pipes m ∧
      getFd s1.fds 0 = some x0 ∧
      getFd s1.fds 1 = some ((output.map File.output).getD x1) := by
  cases output with
  | none => exact ⟨s, by simp [execute.fileToStdout], hw, h0, h1⟩
  | some path =>
    obtain ⟨ht, hkeep⟩ := redirect_table s.fds 1 (.output path) x1 h1
    refine ⟨{ s with
        fds := setFd (setFd (setFd s.fds (lowestFree s.fds) (some (.output path))) 1
          (some (.output path))) (lowestFree s.fds) none
        trace := s.trace ++ [.close (lowestFree s.fds)] }, ?_, ?_, hkeep 0 x0 (by omega) h0, ht⟩
    · have hd := dup2_run (lowestFree s.fds) 1 (.output path)
        { s with fds := setFd s.fds (lowestFree s.fds) (some (.output path)) }
        (getFd_setFd_same _ _ _)
      simp only [execute.fileToStdout, bind_run, sys_open_run os path true s (hopen path rfl)]
      simp only [if_true] at hd ⊢
      simp [hd]
    · exact hw.mono fun fd f _ hf1 h => hkeep fd f hf1 h

theorem child_tail_stops (os : OS) (argv : List String) (s : Proc) :
    ∃ st s1, (do
        execvp os argv
        ERROR os "execvp() failed"
        (exit 1 : Run Unit)) s = .stop st s1 ∧ s1.fds = s.fds ∧
      (∀ file rest, argv = file :: rest → os.canExec file = true → st = .execed file argv) := by
  cases argv with
  | nil => exact ⟨.crashed, s, by simp [execvp], rfl, fun _ _ h => by cases h⟩
  | cons file rest =>
    by_cases hx : os.canExec file = true
    · refine ⟨.execed file (file :: rest), s, by simp [execvp, hx], rfl, ?_⟩
      intro f r h _
      cases h
      rfl
    · cases he : os.errorExits
      · exact ⟨.exited 1, { s with trace := s.trace ++ [.error "execvp() failed"] },
          by simp [execvp, hx, ERROR, he, exit], rfl,
          fun f r h hc => by cases h; exact absurd hc hx⟩
      · exact ⟨.exited 1, { s with trace := s.trace ++ [.error "execvp() failed"] },
          by simp [execvp, hx, ERROR, he, exit], rfl,
          fun f r h hc => by cases h; exact absurd hc hx⟩

theorem child_wired (os : OS) (r : Pipeline) (pipes : List (Option (Nat × Nat)))
    (base n i : Nat) (cmd : Command) (s : Proc) (x0 x1 : File)
    (hcmd : r.processes[i]? = some cmd) (hlen : pipes.length = n - 1)
    (hw : Wired s.fds base pipes (n - 1)) (hi : i < n)
    (h0 : getFd s.fds 0 = some x0) (h1 : getFd s.fds 1 = some x1)
    (hin : ∀ path, cmd.input = some path → os.canOpen path false = true)
    (hout : ∀ path, cmd.output = some path → os.canOpen path true = true) :
    ∃ st s1, execute.child os r pipes n i s = .stop st s1 ∧
      getFd s1.fds 0 = some (match cmd.input with
        | some path => File.input path
        | none => if 0 < i then File.pipeRead (base + (i - 1)) else x0) ∧
      getFd s1.fds 1 = some (match cmd.output with
        | some path => File.output path
        | none => if i + 1 < n then File.pipeWrite (base + i) else x1) ∧
      (∀ file rest, cmd.argv = file :: rest → os.canExec file = true →
        st = .execed file cmd.argv) := by
  obtain ⟨s1, e1, w1, a1, b1⟩ := pipeToStdin_run os pipes base (n - 1) i s hw (by omega)
  have a1' : getFd s1.fds 0 = some (if 0 < i then File.pipeRead (base + (i - 1)) else x0) := by
    rw [a1]; split <;> simp [h0]
  obtain ⟨s2, e2, w2, a2, b2⟩ := fileToStdin_run os pipes base (n - 1) cmd.input s1 _ x1 w1 a1'
    (b1.trans h1) hin
  obtain ⟨s3, e3, w3, a3, b3⟩ := pipeToStdout_run os pipes base (n - 1) n i s2 w2 (by omega)
  have b3' : getFd s3.fds 1 = some (if i + 1 < n then File.pipeWrite (base + i) else x1) := by
    rw [b3]; split <;> simp [b2]
  obtain ⟨s4, e4, w4, a4, b4⟩ := fileToStdout_run os pipes base (n - 1) cmd.output s3 _ _ w3
    (a3.trans a2) b3' hout
  have hsome : ∀ j, j < 0 + (n - 1) → ∃ r w, pipes[j]? = some (some (r, w)) := by
    intro j hj
    obtain ⟨r, w, h, -⟩ := w4 j (by omega)
    exact ⟨r, w, h⟩
  obtain ⟨t, evs, e5, -, hkeep⟩ := closePipes_run pipes (n - 1) 0 s4 hsome
  have haway : ∀ fd, (fd = 0 ∨ fd = 1) →
      ∀ (j r w : Nat), pipes[j]? = some (some (r, w)) → fd ≠ r ∧ fd ≠ w := by
    intro fd hfd j r w hget
    have hj : j < n - 1 := by
      by_contra hge
      rw [List.getElem?_eq_none (by omega)] at hget
      cases hget
    obtain ⟨r2, w2, hget2, hr0, hr1, hw0, hw1, -⟩ := w4 j hj
    rw [hget] at hget2
    cases hget2
    rcases hfd with rfl | rfl
    · exact ⟨Ne.symm hr0, Ne.symm hw0⟩
    · exact ⟨Ne.symm hr1, Ne.symm hw1⟩
  obtain ⟨st, s6, e6, hfds, hst⟩ := child_tail_stops os cmd.argv
    { s4 with fds := t, trace := s4.trace ++ evs }
  refine ⟨st, s6, ?_, ?_, ?_, hst⟩
  · simp only [execute.child, deq_head_ith, hcmd, bind_run, e1, e2, e3, e4, e5]
    simpa only [bind_run] using e6
  · rw [hfds]
    simp only
    rw [hkeep 0 (haway 0 (Or.inl rfl)), a4]
    cases cmd.input <;> rfl
  · rw [hfds]
    simp only
    rw [hkeep 1 (haway 1 (Or.inr rfl)), b4]
    cases cmd.output <;> rfl

theorem forkAll_child (os : OS) (r : Pipeline) (pipes : List (Option (Nat × Nat))) (n : Nat)
    (d : Nat) (k j : Nat) (s : Proc) (hd : d < k)
    (hparent : ∀ m, m < d → 0 < os.fork (s.nfork + m))
    (hchild : os.fork (s.nfork + d) = 0) (st : Status) (s1 : Proc)
    (hrun : execute.child os r pipes n (j + d)
        { s with nfork := s.nfork + (d + 1),
                 trace := s.trace ++ (launched os s.nfork (d + 1)).map Event.fork } =
      .stop st s1) :
    execute.forkAll os r pipes n k j s = .stop st s1 := by
  induction d generalizing k j s with
  | zero =>
    obtain ⟨k, rfl⟩ : ∃ k2, k = k2 + 1 := ⟨k - 1, by omega⟩
    have hc : os.fork s.nfork = 0 := by simpa using hchild
    simp only [launched, List.range_succ, List.range_zero, List.nil_append, List.map_cons,
      List.map_nil, Nat.add_zero, hc, Nat.zero_add] at hrun
    simp [execute.forkAll, hc, hrun]
  | succ d ih =>
    obtain ⟨k, rfl⟩ : ∃ k2, k = k2 + 1 := ⟨k - 1, by omega⟩
    have hpos := hparent 0 (by omega)
    simp only [Nat.add_zero] at hpos
    have h1 : os.fork s.nfork ≠ -1 := by omega
    have h0 : os.fork s.nfork ≠ 0 := by omega
    have := ih k (j + 1)
      { s with nfork := s.nfork + 1, trace := s.trace ++ [.fork (os.fork s.nfork)] }
      (by omega)
      (fun m hm => by
        have := hparent (m + 1) (by omega)
        simpa [Nat.add_assoc, Nat.add_comm 1] using this)
      (by simpa [Nat.add_assoc, Nat.add_comm 1] using hchild)
      (by
        rw [launched_succ] at hrun
        simpa [Nat.add_assoc, Nat.add_comm 1, Nat.add_left_comm] using hrun)
    simp [execute.forkAll, h1, h0, this]

/-! ## Pipes created and closed -/

theorem getFd_setFd_none_of_none (t : List (Option File)) (x fd : Nat)
    (h : getFd t fd = none) : getFd (setFd t x none) fd = none := by
  by_cases hx : fd = x
  · rw [hx, getFd_setFd_same]
  · rw [getFd_setFd_other _ _ _ _ hx, h]

theorem getFd_setFd_some_open (t : List (Option File)) (y fd : Nat) (f : File)
    (h : getFd t fd ≠ none) : getFd (setFd t y (some f)) fd ≠ none := by
  by_cases hx : fd = y
  · rw [hx, getFd_setFd_same]; simp
  · rw [getFd_setFd_other _ _ _ _ hx]; exact h

theorem closeAll_none (ps : List (Nat × Nat)) (t : List (Option File)) (fd : Nat)
    (h : getFd t fd = none) : getFd (closeAll ps t) fd = none := by
  induction ps generalizing t with
  | nil => exact h
  | cons pr ps ih =>
    exact ih _ (getFd_setFd_none_of_none _ _ _ (getFd_setFd_none_of_none _ _ _ h))

theorem closeAll_mem (ps : List (Nat × Nat)) (t : List (Option File)) (pr : Nat × Nat)
    (h : pr ∈ ps) : getFd (closeAll ps t) pr.1 = none ∧ getFd (closeAll ps t) pr.2 = none := by
  induction ps generalizing t with
  | nil => cases h
  | cons q ps ih =>
    rcases List.mem_cons.1 h with rfl | h
    · simp only [closeAll]
      constructor
      · exact closeAll_none ps _ _ (getFd_setFd_none_of_none _ _ _ (getFd_setFd_same _ _ _))
      · exact closeAll_none ps _ _ (getFd_setFd_same _ _ _)
    · exact ih _ h

theorem closeAll_other (ps : List (Nat × Nat)) (t : List (Option File)) (fd : Nat)
    (h : ∀ pr ∈ ps, fd ≠ pr.1 ∧ fd ≠ pr.2) : getFd (closeAll ps t) fd = getFd t fd := by
  induction ps generalizing t with
  | nil => rfl
  | cons q ps ih =>
    obtain ⟨h1, h2⟩ := h q (List.mem_cons_self _ _)
    rw [closeAll, ih _ (fun pr hpr => h pr (List.mem_cons_of_mem _ hpr)),
      getFd_setFd_other _ _ _ _ h2, getFd_setFd_other _ _ _ _ h1]

theorem createPipes_exact (os : OS) (hok : ∀ k, os.pipe_ok k = true) (k : Nat) (s : Proc) :
    ∃ (ps : List (Nat × Nat)) (t : List (Option File)),
      execute.createPipes os k s =
        .ret (ps.map some)
          { s with fds := t, npipe := s.npipe + k, trace := s.trace ++ pipeEvents ps } ∧
      ps.length = k ∧
      (∀ pr ∈ ps, getFd s.fds pr.1 = none ∧ getFd s.fds pr.2 = none) ∧
      PipesOpen t ps ∧
      (∀ fd, (∀ pr ∈ ps, fd ≠ pr.1 ∧ fd ≠ pr.2) → getFd t fd = getFd s.fds fd) := by
  induction k generalizing s with
  | zero =>
    refine ⟨[], s.fds, ?_, rfl, by simp, by simp [PipesOpen], fun _ _ => rfl⟩
    cases s; simp [execute.createPipes, pipeEvents]
  | succ k ih =>
    obtain ⟨r, hrdef⟩ : ∃ r, r = lowestFree s.fds := ⟨_, rfl⟩
    obtain ⟨t1, ht1⟩ : ∃ t1, t1 = setFd s.fds r (some (.pipeRead s.npipe)) := ⟨_, rfl⟩
    obtain ⟨w, hwdef⟩ : ∃ w, w = lowestFree t1 := ⟨_, rfl⟩
    obtain ⟨t2, ht2⟩ : ∃ t2, t2 = setFd t1 w (some (.pipeWrite s.npipe)) := ⟨_, rfl⟩
    have hr : getFd s.fds r = none := by rw [hrdef]; exact getFd_lowestFree _
    have hw1 : getFd t1 w = none := by rw [hwdef]; exact getFd_lowestFree _
    have hr1 : getFd t1 r = some (.pipeRead s.npipe) := by rw [ht1]; exact getFd_setFd_same _ _ _
    have hwr : w ≠ r := fun h => by rw [h, hr1] at hw1; cases hw1
    have hw : getFd s.fds w = none := by
      rw [← getFd_setFd_other s.fds r w (some (.pipeRead s.npipe)) hwr, ← ht1]; exact hw1
    have hr2 : getFd t2 r = some (.pipeRead s.npipe) := by
      rw [ht2, getFd_setFd_other t1 w r _ (Ne.symm hwr)]; exact hr1
    have hw2 : getFd t2 w = some (.pipeWrite s.npipe) := by
      rw [ht2]; exact getFd_setFd_same _ _ _
    have hother : ∀ fd, fd ≠ r → fd ≠ w → getFd t2 fd = getFd s.fds fd := by
      intro fd h1 h2
      rw [ht2, getFd_setFd_other t1 w fd _ h2, ht1, getFd_setFd_other s.fds r fd _ h1]
    obtain ⟨ps, t, hrun, hlen, hfree, hopen, hkeep⟩ := ih
      { s with fds := t2, npipe := s.npipe + 1, trace := s.trace ++ [.pipe r w] }
    have hnotin : ∀ pr ∈ ps, (r ≠ pr.1 ∧ r ≠ pr.2) ∧ (w ≠ pr.1 ∧ w ≠ pr.2) := by
      intro pr hpr
      obtain ⟨h1, h2⟩ := hfree pr hpr
      simp only at h1 h2
      refine ⟨⟨?_, ?_⟩, ⟨?_, ?_⟩⟩
      · intro e; rw [← e, hr2] at h1; cases h1
      · intro e; rw [← e, hr2] at h2; cases h2
      · intro e; rw [← e, hw2] at h1; cases h1
      · intro e; rw [← e, hw2] at h2; cases h2
    refine ⟨(r, w) :: ps, t, ?_, by simp [hlen], ?_, ?_, ?_⟩
    · have hp := pipe_run_ok os s (hok _)
      rw [← hrdef, ← ht1, ← hwdef, ← ht2] at hp
      simp only [execute.createPipes, bind_run, hp]
      simp only [Option.isNone_some, Bool.false_eq_true, if_false, pure_run, bind_run, hrun]
      simp [pipeEvents, Nat.add_assoc, Nat.add_comm 1]
    · intro pr hpr
      rcases List.mem_cons.1 hpr with rfl | hpr
      · exact ⟨hr, hw⟩
      · obtain ⟨h1, h2⟩ := hfree pr hpr
        obtain ⟨⟨a1, a2⟩, ⟨b1, b2⟩⟩ := hnotin pr hpr
        simp only at h1 h2
        rw [hother pr.1 (Ne.symm a1) (Ne.symm b1)] at h1
        rw [hother pr.2 (Ne.symm a2) (Ne.symm b2)] at h2
        exact ⟨h1, h2⟩
    · intro pr hpr
      rcases List.mem_cons.1 hpr with rfl | hpr
      · have e1 := hkeep r (fun pr hpr => (hnotin pr hpr).1)
        have e2 := hkeep w (fun pr hpr => (hnotin pr hpr).2)
        simp only at e1 e2
        simp only [e1, e2, hr2, hw2]
        simp
      · exact hopen pr hpr
    · intro fd hfd
      obtain ⟨h1, h2⟩ := hfd (r, w) (List.mem_cons_self _ _)
      rw [hkeep fd (fun pr hpr => hfd pr (List.mem_cons_of_mem _ hpr))]
      exact hother fd h1 h2

theorem closePipes_exact (pre ps : List (Nat × Nat)) (s : Proc) :
    execute.closePipes ((pre ++ ps).map some) ps.length pre.length s =
      .ret () { s with fds := closeAll ps s.fds, trace := s.trace ++ closeEvents ps } := by
  induction ps generalizing pre s with
  | nil => cases s; simp [execute.closePipes, closeAll, closeEvents]
  | cons pr ps ih =>
    have hget : ((pre ++ pr :: ps).map some)[pre.length]? = some (some (pr.1, pr.2)) := by
      rw [List.map_append, List.getElem?_append_right (by simp)]
      simp
    have := ih (pre ++ [pr])
      { s with fds := setFd (setFd s.fds pr.1 none) pr.2 none,
               trace := s.trace ++ [.close pr.1] ++ [.close pr.2] }
    simp only [List.append_assoc, List.singleton_append, List.length_append, List.length_cons,
      List.length_nil, Nat.zero_add] at this
    simp only [List.length_cons, execute.closePipes, bind_run,
      pipeAt_run _ pre.length pr.1 pr.2 s hget, close_run, List.append_assoc,
      List.cons_append, List.nil_append] at this ⊢
    rw [this]
    simp [closeAll, closeEvents]

theorem PipesOpen.setFd_some {t : List (Option File)} {ps : List (Nat × Nat)}
    (h : PipesOpen t ps) (y : Nat) (f : File) : PipesOpen (setFd t y (some f)) ps :=
  fun pr hpr => ⟨getFd_setFd_some_open _ _ _ _ (h pr hpr).1,
    getFd_setFd_some_open _ _ _ _ (h pr hpr).2⟩

theorem PipesOpen.redirect {t : List (Option File)} {ps : List (Nat × Nat)}
    (h : PipesOpen t ps) (target : Nat) (x : File) :
    PipesOpen (setFd (setFd (setFd t (lowestFree t) (some x)) target (some x))
      (lowestFree t) none) ps := by
  intro pr hpr
  have hfree := getFd_lowestFree t
  have key : ∀ fd, getFd t fd ≠ none →
      getFd (setFd (setFd (setFd t (lowestFree t) (some x)) target (some x))
        (lowestFree t) none) fd ≠ none := by
    intro fd hfd
    have hne : fd ≠ lowestFree t := fun e => hfd (e ▸ hfree)
    rw [getFd_setFd_other _ _ _ _ hne]
    exact getFd_setFd_some_open _ _ _ _ (getFd_setFd_some_open _ _ _ _ hfd)
  exact ⟨key _ (h pr hpr).1, key _ (h pr hpr).2⟩

theorem ERROR_then_exit (os : OS) (msg : String) (s : Proc) :
    ∃ s1, (do ERROR os msg; (exit 1 : Run Unit)) s = .stop (.exited 1) s1 := by
  cases he : os.errorExits
  · exact ⟨{ s with trace := s.trace ++ [.error msg] }, by simp [ERROR, he, exit]⟩
  · exact ⟨{ s with trace := s.trace ++ [.error msg] }, by simp [ERROR, he, exit]⟩

theorem pipeToStdin_open (os : OS) (ps : List (Nat × Nat)) (i : Nat) (hi : i ≤ ps.length) :
    PhaseOk ps (execute.pipeToStdin os (ps.map some) i) := by
  intro s hopen
  left
  by_cases h0 : 0 < i
  · have hlt : i - 1 < ps.length := by omega
    have hget : (ps.map some)[i - 1]? = some (some ((ps[i - 1]).1, (ps[i - 1]).2)) := by
      simp [List.getElem?_eq_getElem hlt]
    obtain ⟨hr, -⟩ := hopen (ps[i - 1]) (List.getElem_mem _)
    obtain ⟨f, hf⟩ := Option.ne_none_iff_exists'.1 hr
    refine ⟨{ s with fds := setFd s.fds 0 (some f) }, [], ?_, hopen.setFd_some 0 f, by simp⟩
    simp [execute.pipeToStdin, h0, pipeAt_run _ (i - 1) _ _ s hget, dup2_run _ 0 f s hf]
  · exact ⟨s, [], by simp [execute.pipeToStdin, h0], hopen, by simp⟩

theorem pipeToStdout_open (os : OS) (ps : List (Nat × Nat)) (n i : Nat)
    (hi : i + 1 < n → i < ps.length) :
    PhaseOk ps (execute.pipeToStdout os (ps.map some) n i) := by
  intro s hopen
  left
  by_cases h0 : i + 1 < n
  · have hlt : i < ps.length := hi h0
    have hget : (ps.map some)[i]? = some (some ((ps[i]).1, (ps[i]).2)) := by
      simp [List.getElem?_eq_getElem hlt]
    obtain ⟨-, hw⟩ := hopen (ps[i]) (List.getElem_mem _)
    obtain ⟨f, hf⟩ := Option.ne_none_iff_exists'.1 hw
    refine ⟨{ s with fds := setFd s.fds 1 (some f) }, [], ?_, hopen.setFd_some 1 f, by simp⟩
    simp [execute.pipeToStdout, h0, pipeAt_run _ i _ _ s hget, dup2_run _ 1 f s hf]
  · exact ⟨s, [], by simp [execute.pipeToStdout, h0], hopen, by simp⟩

theorem fileToStdin_open (os : OS) (ps : List (Nat × Nat)) (input : Option String) :
    PhaseOk ps (execute.fileToStdin os input) := by
  intro s hopen
  cases input with
  | none => exact Or.inl ⟨s, [], by simp [execute.fileToStdin], hopen, by simp⟩
  | some path =>
    cases hc : os.canOpen path false
    · right
      obtain ⟨s1, h1⟩ := ERROR_then_exit os "failed to open input file" s
      exact ⟨s1, by simpa [execute.fileToStdin, sys_open, hc] using h1⟩
    · left
      refine ⟨{ s with
          fds := setFd (setFd (setFd s.fds (lowestFree s.fds) (some (.input path))) 0
            (some (.input path))) (lowestFree s.fds) none
          trace := s.trace ++ [.close (lowestFree s.fds)] }, [.close (lowestFree s.fds)], ?_,
        hopen.redirect 0 (.input path), rfl⟩
      have hd := dup2_run (lowestFree s.fds) 0 (.input path)
        { s with fds := setFd s.fds (lowestFree s.fds) (some (.input path)) }
        (getFd_setFd_same _ _ _)
      simp only [execute.fileToStdin, bind_run, sys_open_run os path false s hc]
      simp only [Bool.false_eq_true, if_false] at hd ⊢
      simp [hd]

theorem fileToStdout_open (os : OS) (ps : List (Nat × Nat)) (output : Option String) :
    PhaseOk ps (execute.fileToStdout os output) := by
  intro s hopen
  cases output with
  | none => exact Or.inl ⟨s, [], by simp [execute.fileToStdout], hopen, by simp⟩
  | some path =>
    cases hc : os.canOpen path true
    · right
      obtain ⟨s1, h1⟩ := ERROR_then_exit os "failed to open output file" s
      exact ⟨s1, by simpa [execute.fileToStdout, sys_open, hc] using h1⟩
    · left
      refine ⟨{ s with
          fds := setFd (setFd (setFd s.fds (lowestFree s.fds) (some (.output path))) 1
            (some (.output path))) (lowestFree s.fds) none
          trace := s.trace ++ [.close (lowestFree s.fds)] }, [.close (lowestFree s.fds)], ?_,
        hopen.redirect 1 (.output path), rfl⟩
      have hd := dup2_run (lowestFree s.fds) 1 (.output path)
        { s with fds := setFd s.fds (lowestFree s.fds) (some (.output path)) }
        (getFd_setFd_same _ _ _)
      simp only [execute.fileToStdout, bind_run, sys_open_run os path true s hc]
      simp only [if_true] at hd ⊢
      simp [hd]

theorem child_tail_exec (os : OS) (argv : List String) (s : Proc) :
    ∃ st s1, (do
        execvp os argv
        ERROR os "execvp() failed"
        (exit 1 : Run Unit)) s = .stop st s1 ∧
      ((∃ file args, st = .execed file args) → s1 = s) := by
  cases argv with
  | nil => exact ⟨.crashed, s, by simp [execvp], fun ⟨_, _, h⟩ => by cases h⟩
  | cons file rest =>
    by_cases hx : os.canExec file = true
    · exact ⟨.execed file (file :: rest), s, by simp [execvp, hx], fun _ => rfl⟩
    · obtain ⟨s1, h1⟩ := ERROR_then_exit os "execvp() failed" s
      exact ⟨.exited 1, s1, by simpa [execvp, hx] using h1, fun ⟨_, _, h⟩ => by cases h⟩

theorem child_closes (os : OS) (r : Pipeline) (ps : List (Nat × Nat)) (n i : Nat) (s : Proc)
    (hlen : ps.length = n - 1) (hi : i < n) (hopen : PipesOpen s.fds ps) :
    ∃ st s1, execute.child os r (ps.map some) n i s = .stop st s1 ∧
      ((∃ file args, st = .execed file args) →
        (∃ mid, s1.trace = s.trace ++ mid ++ closeEvents ps) ∧
        ∀ pr ∈ ps, getFd s1.fds pr.1 = none ∧ getFd s1.fds pr.2 = none) := by
  have hno : ∀ (s1 : Proc), (∃ file args, Status.exited 1 = .execed file args) →
      (∃ mid, s1.trace = s.trace ++ mid ++ closeEvents ps) ∧
        ∀ pr ∈ ps, getFd s1.fds pr.1 = none ∧ getFd s1.fds pr.2 = none :=
    fun _ ⟨_, _, h⟩ => by cases h
  cases hcmd : deq_head_ith r.processes i with
  | none => exact ⟨.crashed, s, by simp [execute.child, hcmd], fun ⟨_, _, h⟩ => by cases h⟩
  | some cmd =>
    simp only [execute.child, hcmd, bind_run]
    rcases pipeToStdin_open os ps i (by omega) s hopen with ⟨s1, e1, h1, o1, t1⟩ | ⟨s1, h1⟩
    swap
    · exact ⟨_, s1, by rw [h1], hno s1⟩
    rw [h1]; simp only
    rcases fileToStdin_open os ps cmd.input s1 o1 with ⟨s2, e2, h2, o2, t2⟩ | ⟨s2, h2⟩
    swap
    · exact ⟨_, s2, by rw [h2], hno s2⟩
    rw [h2]; simp only
    rcases pipeToStdout_open os ps n i (by omega) s2 o2 with ⟨s3, e3, h3, o3, t3⟩ | ⟨s3, h3⟩
    swap
    · exact ⟨_, s3, by rw [h3], hno s3⟩
    rw [h3]; simp only
    rcases fileToStdout_open os ps cmd.output s3 o3 with ⟨s4, e4, h4, o4, t4⟩ | ⟨s4, h4⟩
    swap
    · exact ⟨_, s4, by rw [h4], hno s4⟩
    rw [h4]; simp only
    have hclose := closePipes_exact [] ps s4
    simp only [List.nil_append, List.length_nil] at hclose
    rw [hlen] at hclose
    rw [hclose]; simp only
    obtain ⟨st, s6, e6, hst⟩ := child_tail_exec os cmd.argv
      { s4 with fds := closeAll ps s4.fds, trace := s4.trace ++ closeEvents ps }
    refine ⟨st, s6, by simpa only [bind_run] using e6, fun hex => ?_⟩
    rw [hst hex]
    refine ⟨⟨e1 ++ e2 ++ e3 ++ e4, ?_⟩, fun pr hpr => closeAll_mem ps s4.fds pr hpr⟩
    simp [t4, t3, t2, t1]

/-! ## The interpreter -/

theorem i_pipeline_run (junk : Option T_redir) (t : T_pipeline) (p : PipelineRep) :
    i_pipeline junk t p =
      { processes := p.processes ++ t.commands.map (i_command junk), fg := p.fg } := by
  induction t generalizing p with
  | null => simp [i_pipeline, T_pipeline.commands]
  | node command rest ih =>
    simp [i_pipeline, T_pipeline.commands, ih, addPipeline, deq_tail_put]

/-! ## The scanner -/

theorem thru_eq (p : List Char) : wsthru p = p.dropWhile isBlank := by
  induction p with
  | nil => rfl
  | cons c p ih =>
    unfold wsthru at ih ⊢
    by_cases h : c = ' ' <;> by_cases h2 : c = '\t' <;>
      simp [thru, List.dropWhile_cons, isBlank, h, h2, ih]

theorem upto_eq (p : List Char) : wsupto p = p.dropWhile fun c => !isBlank c := by
  induction p with
  | nil => rfl
  | cons c p ih =>
    unfold wsupto at ih ⊢
    by_cases h : c = ' ' <;> by_cases h2 : c = '\t' <;>
      simp [upto, List.dropWhile_cons, isBlank, h, h2, ih]

theorem take_sub_dropWhile (f : Char → Bool) (l : List Char) :
    l.take (l.length - (l.dropWhile f).length) = l.takeWhile f := by
  induction l with
  | nil => rfl
  | cons c l ih =>
    by_cases h : f c
    · have hle : (l.dropWhile f).length ≤ l.length := (List.dropWhile_sublist f).length_le
      simp only [List.dropWhile_cons, h, if_true, List.takeWhile_cons, List.length_cons]
      rw [show l.length + 1 - (l.dropWhile f).length = (l.length - (l.dropWhile f).length) + 1
        by omega]
      simp [ih]
    · simp [List.dropWhile_cons, List.takeWhile_cons, h]

theorem tokensOf_nil : tokensOf [] = [] := by
  simp [tokensOf, List.splitOnP_nil]

theorem tokensOf_blank (c : Char) (l : List Char) (h : isBlank c = true) :
    tokensOf (c :: l) = tokensOf l := by
  simp [tokensOf, List.splitOnP_cons, h]

theorem tokensOf_dropWhile (l : List Char) : tokensOf l = tokensOf (l.dropWhile isBlank) := by
  induction l with
  | nil => rfl
  | cons c l ih =>
    by_cases h : isBlank c = true
    · rw [tokensOf_blank c l h, List.dropWhile_cons, if_pos h, ih]
    · simp [List.dropWhile_cons, h]

theorem tokensOf_run (c : Char) (l : List Char) (h : isBlank c = false) :
    tokensOf (c :: l) =
      String.mk ((c :: l).takeWhile fun x => !isBlank x) ::
        tokensOf ((c :: l).dropWhile fun x => !isBlank x) := by
  have hsplit := List.takeWhile_append_dropWhile (fun x => !isBlank x) (c :: l)
  have hrun : ∀ x ∈ (c :: l).takeWhile (fun x => !isBlank x), ¬ (isBlank x = true) := by
    intro x hx
    have := List.mem_takeWhile_imp hx
    simpa using this
  have hne : (c :: l).takeWhile (fun x => !isBlank x) ≠ [] := by
    simp [List.takeWhile_cons, h]
  cases hd : (c :: l).dropWhile (fun x => !isBlank x) with
  | nil =>
    rw [hd, List.append_nil] at hsplit
    have hall : ∀ x ∈ c :: l, ¬ (isBlank x = true) := by
      rw [hsplit] at hrun; exact hrun
    rw [hsplit, tokensOf_nil]
    simp only [tokensOf, List.splitOnP_eq_single isBlank (c :: l) hall]
    simp
  | cons sep ds =>
    have hsep : isBlank sep = true := by
      have := List.head_dropWhile_not (fun x => !isBlank x) (c :: l) (by rw [hd]; simp)
      simp only [hd, List.head_cons] at this
      simpa using this
    rw [tokensOf_blank sep ds hsep]
    rw [hd] at hsplit
    conv_lhs => rw [← hsplit]
    simp only [tokensOf]
    rw [List.splitOnP_first isBlank _ hrun sep hsep ds]
    simp [hne]

theorem calls_eos (k : Nat) (r : ScannerRep) (h : r.eos ≠ 0) :
    nextScanner.calls k r = List.replicate k none := by
  induction k with
  | zero => rfl
  | succ k ih => simp [nextScanner.calls, nextScanner, h, ih, List.replicate_succ]

theorem calls_scan (k : Nat) (r : ScannerRep) (h : r.eos = 0) :
    nextScanner.calls k r = (List.range k).map fun i => (tokensOf r.pos)[i]? := by
  induction k generalizing r with
  | zero => rfl
  | succ k ih =>
    rw [List.range_succ_eq_map, List.map_cons, List.map_map]
    rw [tokensOf_dropWhile r.pos]
    cases hold : r.pos.dropWhile isBlank with
    | nil =>
      have hnext : nextScanner r = (none, { r with eos := 1 }) := by
        simp [nextScanner, h, thru_eq, upto_eq, hold]
      simp only [nextScanner.calls, hnext, tokensOf_nil]
      rw [calls_eos k _ (by simp)]
      simp [Function.comp_def, List.map_const']
    | cons c l =>
      have hc : isBlank c = false := by
        have := List.head_dropWhile_not isBlank r.pos (by rw [hold]; simp)
        simp only [hold, List.head_cons] at this
        simpa using this
      have hlen : ((c :: l).dropWhile fun x => !isBlank x).length < (c :: l).length := by
        simp only [List.dropWhile_cons, hc, Bool.not_false, if_true, List.length_cons]
        exact Nat.lt_succ_of_le (List.dropWhile_sublist _).length_le
      have hnext : nextScanner r =
          (some (String.mk ((c :: l).takeWhile fun x => !isBlank x)),
            { r with curr := some (String.mk ((c :: l).takeWhile fun x => !isBlank x)),
                     pos := (c :: l).dropWhile fun x => !isBlank x }) := by
        have hsz : (c :: l).length - ((c :: l).dropWhile fun x => !isBlank x).length ≠ 0 := by
          omega
        simp only [nextScanner, h, thru_eq, upto_eq, hold, ne_eq, not_true_eq_false, if_false,
          hsz, take_sub_dropWhile]
      simp only [nextScanner.calls, hnext, tokensOf_run c l hc]
      rw [ih _ (by simpa using h)]
      simp [Function.comp_def]

/-! ## The parser -/

@[simp] theorem pure_parse {α : Type} (a : α) (s : ParserState) :
    (pure a : Parse α) s = some (.ret a s) := rfl

@[simp] theorem bind_parse {α β : Type} (x : Parse α) (f : α → Parse β) (s : ParserState) :
    (x >>= f) s = match x s with
      | none => none
      | some (.ret a s1) => f a s1
      | some (.stop st s1) => some (.stop st s1) := rfl

theorem nextScanner_tokens (r : ScannerRep) (h : r.eos = 0) :
    (tokensOf r.pos = [] → nextScanner r = (none, { r with eos := 1 })) ∧
    (∀ t ts, tokensOf r.pos = t :: ts →
      ∃ p, nextScanner r = (some t, { r with curr := some t, pos := p }) ∧ tokensOf p = ts) := by
  rw [tokensOf_dropWhile r.pos]
  cases hold : r.pos.dropWhile isBlank with
  | nil =>
    refine ⟨fun _ => ?_, fun t ts ht => ?_⟩
    · simp [nextScanner, h, thru_eq, upto_eq, hold]
    · simp [tokensOf_nil] at ht
  | cons c l =>
    have hc : isBlank c = false := by
      have := List.head_dropWhile_not isBlank r.pos (by rw [hold]; simp)
      simp only [hold, List.head_cons] at this
      simpa using this
    have hlen : ((c :: l).dropWhile fun x => !isBlank x).length < (c :: l).length := by
      simp only [List.dropWhile_cons, hc, Bool.not_false, if_true, List.length_cons]
      exact Nat.lt_succ_of_le (List.dropWhile_sublist _).length_le
    have hnext : nextScanner r =
        (some (String.mk ((c :: l).takeWhile fun x => !isBlank x)),
          { r with curr := some (String.mk ((c :: l).takeWhile fun x => !isBlank x)),
                   pos := (c :: l).dropWhile fun x => !isBlank x }) := by
      have hsz : (c :: l).length - ((c :: l).dropWhile fun x => !isBlank x).length ≠ 0 := by
        omega
      simp only [nextScanner, h, thru_eq, upto_eq, hold, ne_eq, not_true_eq_false, if_false,
        hsz, take_sub_dropWhile]
    rw [tokensOf_run c l hc]
    refine ⟨fun hx => by simp at hx, fun t ts ht => ?_⟩
    simp only [List.cons.injEq] at ht
    obtain ⟨rfl, rfl⟩ := ht
    exact ⟨_, hnext, rfl⟩

theorem nextScanner_pending (r : ScannerRep) (hr : r.Ready) :
    (nextScanner r).2.pending = r.pending.tail ∧ (nextScanner r).2.Ready := by
  by_cases h : r.eos = 0
  · obtain ⟨c, hc⟩ : ∃ c, r.curr = some c := Option.ne_none_iff_exists'.1 (hr h)
    obtain ⟨h1, h2⟩ := nextScanner_tokens r h
    cases ht : tokensOf r.pos with
    | nil =>
      rw [h1 ht]
      simp [ScannerRep.pending, ScannerRep.Ready, h, hc, ht]
    | cons t ts =>
      obtain ⟨p, hp, hts⟩ := h2 t ts ht
      rw [hp]
      simp [ScannerRep.pending, ScannerRep.Ready, h, hc, ht, hts]
  · simp [nextScanner, h, ScannerRep.pending, ScannerRep.Ready]

theorem currScanner_pending (r : ScannerRep) :
    (currScanner r).1 = r.pending.head? ∧ (currScanner r).2.pending = r.pending ∧
      (currScanner r).2.Ready := by
  by_cases h : r.eos = 0
  · cases hc : r.curr with
    | some c => simp [currScanner, h, hc, ScannerRep.pending, ScannerRep.Ready]
    | none =>
      obtain ⟨h1, h2⟩ := nextScanner_tokens r h
      cases ht : tokensOf r.pos with
      | nil =>
        simp [currScanner, h, hc, h1 ht, ScannerRep.pending, ScannerRep.Ready, ht]
      | cons t ts =>
        obtain ⟨p, hp, hts⟩ := h2 t ts ht
        simp [currScanner, h, hc, hp, ScannerRep.pending, ScannerRep.Ready, ht, hts]
  · simp [currScanner, h, ScannerRep.pending, ScannerRep.Ready]

theorem currScanner_ready (r : ScannerRep) (hr : r.Ready) :
    currScanner r = (r.pending.head?, r) := by
  by_cases h : r.eos = 0
  · obtain ⟨c, hc⟩ : ∃ c, r.curr = some c := Option.ne_none_iff_exists'.1 (hr h)
    simp [currScanner, h, hc, ScannerRep.pending]
  · simp [currScanner, h, ScannerRep.pending]

theorem cmpScanner_ready (r : ScannerRep) (t : String) (hr : r.Ready) :
    cmpScanner r t = (if r.pending.head? = some t then 1 else 0, r) := by
  by_cases h : r.eos = 0
  · obtain ⟨c, hc⟩ : ∃ c, r.curr = some c := Option.ne_none_iff_exists'.1 (hr h)
    by_cases hct : c = t <;>
      simp [cmpScanner, currScanner_ready r hr, h, hc, ScannerRep.pending, hct]
  · simp [cmpScanner, currScanner_ready r hr, h, ScannerRep.pending]

theorem eatScanner_ready (r : ScannerRep) (t : String) (hr : r.Ready) :
    eatScanner r t =
      if r.pending.head? = some t then (1, (nextScanner r).2) else (0, r) := by
  by_cases h : r.pending.head? = some t <;> simp [eatScanner, cmpScanner_ready r t hr, h]

theorem Parser.cmp_ready (t : String) (s : ParserState) (hr : s.scan.Ready) :
    Parser.cmp t s = some (.ret (if s.scan.pending.head? = some t then 1 else 0) s) := by
  simp [Parser.cmp, cmpScanner_ready s.scan t hr]

theorem Parser.eat_ready (t : String) (s : ParserState) (hr : s.scan.Ready) :
    Parser.eat t s = some (.ret (if s.scan.pending.head? = some t then 1 else 0)
      (if s.scan.pending.head? = some t then { s with scan := (nextScanner s.scan).2 } else s)) := by
  by_cases h : s.scan.pending.head? = some t <;>
    simp [Parser.eat, eatScanner_ready s.scan t hr, h]

theorem p_word_run (s : ParserState) :
    ∃ scan1, p_word s =
        some (.ret (s.scan.pending.head?.map T_word.mk) { s with scan := scan1 }) ∧
      scan1.pending = s.scan.pending.tail ∧ scan1.Ready := by
  obtain ⟨h1, h2, h3⟩ := currScanner_pending s.scan
  cases hh : s.scan.pending.head? with
  | none =>
    refine ⟨(currScanner s.scan).2, ?_, ?_, h3⟩
    · simp [p_word, Parser.curr, h1, hh]
    · rw [h2]
      cases hp : s.scan.pending with
      | nil => rfl
      | cons a l => simp [hp] at hh
  | some tok =>
    obtain ⟨h4, h5⟩ := nextScanner_pending _ h3
    refine ⟨(nextScanner (currScanner s.scan).2).2, ?_, ?_, h5⟩
    · simp [p_word, Parser.curr, Parser.next, h1, hh]
    · rw [h4, h2]

theorem p_words_end (fuel : Nat) (s : ParserState) (hs : s.scan.pending = []) :
    ∃ scan1, p_words (fuel + 1) s = some (.ret [] { s with scan := scan1 }) ∧
      scan1.pending = [] ∧ scan1.Ready := by
  obtain ⟨r1, h1, hp1, hr1⟩ := p_word_run s
  rw [hs] at h1 hp1
  exact ⟨r1, by simp [p_words, h1], hp1, hr1⟩

theorem p_words_run (ws : List String) (fuel : Nat) (s : ParserState) (w : String)
    (rest : List String)
    (hs : s.scan.pending = w :: ws ++ rest)
    (hws : ∀ x ∈ ws, x ∉ operators)
    (hrest : ∀ x, rest.head? = some x → x ∈ operators)
    (hfuel : ws.length + 1 < fuel) :
    ∃ scan1, p_words fuel s = some (.ret ((w :: ws).map T_word.mk) { s with scan := scan1 }) ∧
      scan1.pending = rest ∧ scan1.Ready := by
  induction ws generalizing fuel s w with
  | nil =>
    obtain ⟨f, rfl⟩ : ∃ f, fuel = f + 1 + 1 := ⟨fuel - 2, by simp at hfuel; omega⟩
    obtain ⟨r1, h1, hp1, hr1⟩ := p_word_run s
    rw [hs] at h1 hp1
    simp only [List.cons_append, List.nil_append, List.head?_cons, Option.map_some',
      List.tail_cons] at h1 hp1
    have hr1s : ({ s with scan := r1 } : ParserState).scan.Ready := hr1
    cases hrest0 : rest with
    | nil =>
      obtain ⟨r2, h2, hp2, hr2⟩ := p_words_end f { s with scan := r1 } (by simpa [hrest0] using hp1)
      refine ⟨r2, ?_, by simpa using hp2, hr2⟩
      rw [p_words]
      simp [h1, Parser.cmp_ready _ _ hr1s, hp1, hrest0, h2]
    | cons x xs =>
      have hx : x ∈ operators := hrest x (by simp [hrest0])
      refine ⟨r1, ?_, by simpa [hrest0] using hp1, hr1⟩
      simp only [operators, List.mem_cons, List.mem_singleton, List.not_mem_nil, or_false] at hx
      rw [p_words]
      rcases hx with rfl | rfl | rfl | rfl | rfl <;>
        simp [h1, Parser.cmp_ready _ _ hr1s, hp1, hrest0]
  | cons w2 ws ih =>
    obtain ⟨f, rfl⟩ : ∃ f, fuel = f + 1 := ⟨fuel - 1, by simp at hfuel; omega⟩
    obtain ⟨r1, h1, hp1, hr1⟩ := p_word_run s
    rw [hs] at h1 hp1
    simp only [List.cons_append, List.head?_cons, Option.map_some', List.tail_cons] at h1 hp1
    have hr1s : ({ s with scan := r1 } : ParserState).scan.Ready := hr1
    have hw2 : w2 ∉ operators := hws w2 (by simp)
    simp only [operators, List.mem_cons, List.mem_singleton, List.not_mem_nil, or_false,
      not_or] at hw2
    obtain ⟨r2, h2, hp2, hr2⟩ := ih f { s with scan := r1 } w2 (by simpa using hp1)
      (fun x hx => hws x (by simp [hx])) (by simp at hfuel; omega)
    refine ⟨r2, ?_, hp2, hr2⟩
    rw [p_words]
    simp [h1, Parser.cmp_ready _ _ hr1s, hp1, hw2, h2]

theorem eat_fails (t : String) (s : ParserState) (hr : s.scan.Ready)
    (h : s.scan.pending.head? ≠ some t) : Parser.eat t s = some (.ret 0 s) := by
  simp [Parser.eat_ready t s hr, h]

theorem eat_then_word (t file : String) (rest : List String) (s : ParserState)
    (hr : s.scan.Ready) (hs : s.scan.pending = t :: file :: rest) :
    ∃ scan0, Parser.eat t s = some (.ret 1 { s with scan := scan0 }) ∧
      ∃ scan1, p_word { s with scan := scan0 } =
          some (.ret (some ⟨file⟩) { s with scan := scan1 }) ∧
        scan1.pending = rest ∧ scan1.Ready := by
  obtain ⟨hp, hr0⟩ := nextScanner_pending s.scan hr
  refine ⟨(nextScanner s.scan).2, by simp [Parser.eat_ready t s hr, hs], ?_⟩
  obtain ⟨r1, h1, hp1, hr1⟩ := p_word_run { s with scan := (nextScanner s.scan).2 }
  simp only [hp, hs, List.tail_cons, List.head?_cons, Option.map_some'] at h1 hp1
  exact ⟨r1, h1, hp1, hr1⟩

theorem p_redir_run (os : OS) (s : ParserState) (inp out : Option String)
    (hr : s.scan.Ready) (hs : s.scan.pending = redirTokens inp out) :
    ∃ scan1, p_redir os s = some (.ret ⟨inp, out⟩ { s with scan := scan1 }) ∧
      scan1.pending = [] ∧ scan1.Ready := by
  cases inp with
  | none =>
    have he1 : Parser.eat "<" s = some (.ret 0 s) := by
      apply eat_fails _ _ hr
      cases out <;> simp [hs, redirTokens]
    cases out with
    | none =>
      have he2 : Parser.eat ">" s = some (.ret 0 s) := by
        apply eat_fails _ _ hr
        simp [hs, redirTokens]
      exact ⟨s.scan, by simp [p_redir, he1, he2], by simp [hs, redirTokens], hr⟩
    | some o =>
      obtain ⟨r0, he2, r1, hw2, hp1, hr1⟩ := eat_then_word ">" o [] s hr (by simp [hs, redirTokens])
      exact ⟨r1, by simp [p_redir, he1, he2, hw2], hp1, hr1⟩
  | some i =>
    cases out with
    | none =>
      obtain ⟨r0, he1, r1, hw1, hp1, hr1⟩ := eat_then_word "<" i [] s hr (by simp [hs, redirTokens])
      have he2 : Parser.eat ">" { s with scan := r1 } = some (.ret 0 { s with scan := r1 }) := by
        apply eat_fails _ _ hr1
        simp [hp1]
      exact ⟨r1, by simp [p_redir, he1, hw1, he2], hp1, hr1⟩
    | some o =>
      obtain ⟨r0, he1, r1, hw1, hp1, hr1⟩ :=
        eat_then_word "<" i [">", o] s hr (by simp [hs, redirTokens])
      obtain ⟨r2, he2, r3, hw2, hp3, hr3⟩ :=
        eat_then_word ">" o [] { s with scan := r1 } hr1 hp1
      exact ⟨r3, by simp [p_redir, he1, hw1, he2, hw2], hp3, hr3⟩

theorem p_sequence_full (os : OS) (fuel : Nat) :
    ∀ (s : ParserState) (t : T_sequence) (s1 : ParserState),
      p_sequence os fuel s = some (.ret t s1) → t.Full := by
  induction fuel with
  | zero => intro s t s1 h; simp [p_sequence] at h
  | succ fuel ih =>
    intro s t s1 h
    simp only [p_sequence, bind_parse, pure_parse, Parser.eat] at h
    cases hp : p_pipeline os (fuel + 1) s with
    | none => simp [hp] at h
    | some res =>
      cases res with
      | stop st s2 => simp [hp] at h
      | ret pl s2 =>
        simp only [hp] at h
        by_cases hnull : pl = .null
        · simp [hnull] at h
          rw [← h.1]; trivial
        · simp only [hnull, if_false] at h
          simp only [bind_parse, pure_parse, Parser.eat] at h
          have hnew : new_sequence.set_pipeline pl = .node pl none .null := rfl
          by_cases h1 : (eatScanner s2.scan "&").1 = 0
          · simp only [h1, ne_eq, not_true_eq_false, if_false, hnew] at h
            simp only [bind_parse, pure_parse, Parser.eat] at h
            split at h
            · simp only [bind_parse, pure_parse] at h
              generalize hq2 : p_sequence os fuel _ = x2 at h
              cases x2 with
              | none => simp at h
              | some res2 =>
                cases res2 with
                | stop st s4 => simp at h
                | ret rest2 s4 =>
                  simp [T_sequence.set_op, T_sequence.set_sequence] at h
                  rw [← h.1]
                  exact ⟨hnull, ih _ _ _ hq2⟩
            · simp [T_sequence.set_op, T_sequence.set_sequence] at h
              rw [← h.1]
              exact ⟨hnull, trivial⟩
          · simp only [h1, ne_eq, not_false_eq_true, if_true, hnew] at h
            simp only [bind_parse] at h
            generalize hq : p_sequence os fuel _ = x at h
            cases x with
            | none => simp at h
            | some res =>
              cases res with
              | stop st s3 => simp at h
              | ret rest s3 =>
                simp only [] at h
                have hr := ih _ _ _ hq
                simp only [bind_parse, pure_parse, Parser.eat] at h
                split at h
                · simp only [bind_parse, pure_parse] at h
                  generalize hq2 : p_sequence os fuel _ = x2 at h
                  cases x2 with
                  | none => simp at h
                  | some res2 =>
                    cases res2 with
                    | stop st s4 => simp at h
                    | ret rest2 s4 =>
                      simp [T_sequence.set_op, T_sequence.set_sequence] at h
                      rw [← h.1]
                      exact ⟨hnull, ih _ _ _ hq2⟩
                · simp [T_sequence.set_op, T_sequence.set_sequence] at h
                  rw [← h.1]
                  exact ⟨hnull, hr⟩

theorem i_sequence_entries (junk : Option T_redir) (t : T_sequence) :
    ∀ (acc : List PipelineRep), t.Full → (∀ p ∈ acc, p.processes ≠ []) →
      ∀ p ∈ i_sequence junk t acc, p.processes ≠ [] := by
  induction t with
  | null => intro acc _ hacc; simpa [i_sequence] using hacc
  | node pipeline op rest ih =>
    intro acc hfull hacc
    obtain ⟨hpl, hrest⟩ := hfull
    simp only [i_sequence]
    apply ih _ hrest
    intro p hp
    simp only [addSequence, deq_tail_put, List.mem_append, List.mem_singleton] at hp
    rcases hp with hp | rfl
    · exact hacc p hp
    · rw [i_pipeline_run]
      cases pipeline with
      | null => exact absurd rfl hpl
      | node command more => simp [T_pipeline.commands, newPipeline, deq_new]

theorem parseTree_full (os : OS) (fuel : Nat) (input : List Char) (tree : T_sequence)
    (h : Parsed.value (parseTree os fuel input) = some tree) : tree.Full := by
  simp only [parseTree, bind_parse, pure_parse] at h
  generalize hq : p_sequence os fuel _ = x at h
  cases x with
  | none => simp [Parsed.value] at h
  | some res =>
    cases res with
    | stop st s1 => simp [Parsed.value] at h
    | ret t s1 =>
      have ht := p_sequence_full os fuel _ _ _ hq
      by_cases hc : (currScanner s1.scan).1.isSome = true <;> cases he : os.errorExits <;>
        simp [Parser.curr, Parser.ERROR, hc, he, Parsed.value] at h <;>
        (rw [← h]; exact ht)

/-! ## A pipeline without commands -/

theorem execute_empty (os : OS) (fg : Bool) (jobbed eof : Int) (s : Proc) :
    execute os ⟨[], fg⟩ jobbed eof s =
      if os.errorExits then
        .stop (.exited 1) { s with trace := s.trace ++ [.error "malloc() failed"] }
      else
        .ret (if jobbed = 0 then 1 else jobbed, eof)
          { s with jobs := if jobbed = 0 then s.jobs ++ [⟨[], fg⟩] else s.jobs,
                   trace := s.trace ++ [.error "malloc() failed"] } := by
  by_cases hj : jobbed = 0 <;> cases he : os.errorExits <;> cases fg <;>
    simp [execute, sizePipeline, deq_len, ERROR, he, execute.createPipes, execute.forkAll,
      execute.closePipes, execute.waitAll, deq_tail_put, hj]

/-! ## A builtin in a forked child -/

theorem child_builtin (os : OS) (r : Command) (fg : Bool)
    (hb : r.file ∈ builtinNames) (hin : r.input = none) (hout : r.output = none) :
    child os r fg = (do let _ ← builtin os r 0; pure ()) := by
  funext s
  simp only [child, hin, hout, bind_run, pure_run]
  cases hx : builtin os r 0 s with
  | ret v s1 =>
    have := builtin_value os r 0 s hb v s1 hx
    simp [this]
  | stop st s1 => rfl

/-! ## The claims -/

/-- C1: `execSequence` runs exactly the shortest initial segment `p1..pj` of
the sequence, in order, after which the end-of-input flag is set (or the
process has stopped): its run is the run of `p1..pj` one after the other,
every shorter segment returns with the flag clear, and `j` is the whole
length unless the run of `p1..pj` does not return with the flag clear.  No
pipeline after `pj` is run; `j = 0` when the flag is set on entry. -/
theorem execSequence_runs_shortest_initial_segment (os : OS) (ps : List Pipeline) (eof : Int)
    (s : Proc) :
    ∃ j, j ≤ ps.length ∧
      execSequence os ps eof s = runAll os (ps.take j) eof s ∧
      (∀ i, i < j → ∃ s1, runAll os (ps.take i) eof s = .ret 0 s1) ∧
      (j = ps.length ∨ ¬ ∃ s1, runAll os (ps.take j) eof s = .ret 0 s1) := by
  induction ps generalizing eof s with
  | nil => exact ⟨0, le_refl _, rfl, by intro i hi; omega, Or.inl rfl⟩
  | cons p ps ih =>
    by_cases h : eof = 0
    · subst h
      cases hp : execPipeline os p 0 s with
      | ret eof1 s1 =>
        obtain ⟨j, hj, hrun, hlt, hlast⟩ := ih eof1 s1
        refine ⟨j + 1, by simpa using hj, ?_, ?_, ?_⟩
        · simp [execSequence, runAll, hp, hrun]
        · intro i hi
          cases i with
          | zero => exact ⟨s, rfl⟩
          | succ i =>
            simpa [runAll, hp] using hlt i (by omega)
        · simpa [runAll, hp] using hlast
      | stop st s1 =>
        refine ⟨1, by simp, ?_, ?_, Or.inr ?_⟩
        · simp [execSequence, runAll, hp]
        · intro i hi
          have : i = 0 := by omega
          subst this
          exact ⟨s, rfl⟩
        · simp [runAll, hp]
    · refine ⟨0, by simp, ?_, by intro i hi; omega, Or.inr ?_⟩
      · simp [execSequence, runAll, h]
      · simp [runAll, h]

/-- C2, at the failing input: the shell runs the background pipeline
`sleep 1 | cat &` with every call succeeding; it creates the two children
and waits for neither, but the registry is still absent afterwards, so pids
100 and 101 are not in it.  The single-command pipeline `sleep 1 &` does
put its pid in the registry. -/
theorem background_pipeline_pids_not_registered :
    (execute shellOS ⟨[simpleCommand ["sleep", "1"], simpleCommand ["cat"]], false⟩ 0 0
        freshShell).state.background_pids = none ∧
    (execute shellOS ⟨[simpleCommand ["sleep", "1"], simpleCommand ["cat"]], false⟩ 0 0
        freshShell).state.trace =
      [.pipe 3 4, .fork 100, .fork 101, .close 3, .close 4] ∧
    (execute shellOS ⟨[simpleCommand ["sleep", "1"]], false⟩ 0 0
        freshShell).state.background_pids = some [100] := by
  decide

/-- C3: a foreground pipeline of `n ≥ 1` commands that is not a single
builtin, with every `fork` and `pipe` succeeding: `execute` returns, and what
it did is, in this order, create the pipes, create `n` children (the pids
answered by the next `n` calls of `fork`), close the pipes, wait once for
each of the `n` pids in launch order. -/
theorem foreground_pipeline_forks_then_waits (os : OS) (p : Pipeline) (jobbed eof : Int)
    (s : Proc)
    (hfg : p.fg = true)
    (hn : 1 ≤ p.processes.length)
    (hnb : ∀ r, p.processes = [r] → r.file ∉ builtinNames)
    (hfork : ∀ k, 0 < os.fork k) (hpipe : ∀ k, os.pipe_ok k = true) :
    ∃ s1 pre mid, execute os p jobbed eof s = .ret (if jobbed = 0 then 1 else jobbed, eof) s1 ∧
      (∀ e ∈ pre, ∃ r w, e = Event.pipe r w) ∧ (∀ e ∈ mid, ∃ fd, e = Event.close fd) ∧
      (launched os s.nfork p.processes.length).length = p.processes.length ∧
      s1.trace = s.trace ++ pre ++
        (launched os s.nfork p.processes.length).map Event.fork ++ mid ++
        (launched os s.nfork p.processes.length).map Event.wait := by
  by_cases h1 : p.processes.length = 1
  · obtain ⟨r, hr⟩ := List.length_eq_one.1 h1
    have := execute_single_launch os p r jobbed eof s hr (fun h => hnb r hr h.2) (hfork _)
    refine ⟨_, [], [], this, by simp, by simp, by simp [launched], ?_⟩
    simp [hr, hfg, launched, List.range_succ]
  · obtain ⟨t, pre, mid, hrun, hpre, hmid⟩ :=
      execute_multi_shell os p jobbed eof s (by omega) hfork hpipe
    refine ⟨_, pre, mid, hrun, hpre, hmid, by simp [launched], ?_⟩
    simp [hfg]

/-- C3, witness: the foreground pipeline `ls | cat | wc` run by a fresh
shell. -/
theorem foreground_pipeline_forks_then_waits_witness :
    lsCatWc.fg = true ∧ 1 ≤ lsCatWc.processes.length ∧
    ∃ s1 pre mid, execute shellOS lsCatWc 0 0 freshShell =
        .ret (if (0 : Int) = 0 then 1 else 0, 0) s1 ∧
      (∀ e ∈ pre, ∃ r w, e = Event.pipe r w) ∧ (∀ e ∈ mid, ∃ fd, e = Event.close fd) ∧
      (launched shellOS freshShell.nfork lsCatWc.processes.length).length =
        lsCatWc.processes.length ∧
      s1.trace = freshShell.trace ++ pre ++
        (launched shellOS freshShell.nfork lsCatWc.processes.length).map Event.fork ++ mid ++
        (launched shellOS freshShell.nfork lsCatWc.processes.length).map Event.wait :=
  ⟨rfl, by decide,
    foreground_pipeline_forks_then_waits shellOS lsCatWc 0 0 freshShell rfl (by decide)
      (fun r h => absurd (congrArg List.length h) (by simp [lsCatWc]))
      (fun k => by show (0 : Int) < 100 + k; omega) (fun _ => rfl)⟩

/-- C4: the process that is the `i`-th child of a pipeline of `n ≥ 2`
commands (`fork` answered 0 at the `i`-th call), with pipes and opens
succeeding and descriptors 0 and 1 open in the shell: it stops running shell
code with descriptor 0 on the file `input` if the command has one, else on
the read end of pipe `i - 1` if `i > 0`, else on what the shell had there;
and descriptor 1 on the file `output` if the command has one, else on the
write end of pipe `i` if `i < n - 1`, else on what the shell had there.
When the program can be executed, it stops by `execvp` of `argv`. -/
theorem pipeline_child_descriptors (os : OS) (p : Pipeline) (jobbed eof : Int) (s : Proc)
    (i : Nat) (cmd : Command)
    (a b : File)
    (hn : 2 ≤ p.processes.length) (hcmd : p.processes[i]? = some cmd)
    (hpipe : ∀ k, os.pipe_ok k = true)
    (hparent : ∀ k, k < i → 0 < os.fork (s.nfork + k)) (hchild : os.fork (s.nfork + i) = 0)
    (hin : ∀ path, cmd.input = some path → os.canOpen path false = true)
    (hout : ∀ path, cmd.output = some path → os.canOpen path true = true)
    (h0 : getFd s.fds 0 = some a) (h1 : getFd s.fds 1 = some b) :
    ∃ st s1, execute os p jobbed eof s = .stop st s1 ∧
      getFd s1.fds 0 = some (match cmd.input with
        | some path => File.input path
        | none => if 0 < i then File.pipeRead (s.npipe + (i - 1)) else a) ∧
      getFd s1.fds 1 = some (match cmd.output with
        | some path => File.output path
        | none => if i + 1 < p.processes.length then File.pipeWrite (s.npipe + i) else b) ∧
      (∀ file rest, cmd.argv = file :: rest → os.canExec file = true →
        st = .execed file cmd.argv) := by
  have hi : i < p.processes.length := by
    by_contra hge
    rw [List.getElem?_eq_none (by omega)] at hcmd
    cases hcmd
  obtain ⟨ps, t1, pre, hcreate, hlen, -, hkeep, hpipes⟩ :=
    createPipes_run os hpipe (p.processes.length - 1) s
  have hw : Wired t1 s.npipe ps (p.processes.length - 1) := by
    intro j hj
    obtain ⟨r, w, hget, hfr, hfw, hr, hw⟩ := hpipes j hj
    refine ⟨r, w, hget, ?_, ?_, ?_, ?_, hr, hw⟩
    · rintro rfl; rw [h0] at hfr; cases hfr
    · rintro rfl; rw [h1] at hfr; cases hfr
    · rintro rfl; rw [h0] at hfw; cases hfw
    · rintro rfl; rw [h1] at hfw; cases hfw
  have hn1 : p.processes.length ≠ 1 := by omega
  have hn0 : p.processes.length ≠ 0 := by omega
  have key : ∀ jobs : List Pipeline, ∃ st s1,
      execute.forkAll os p ps p.processes.length p.processes.length 0
        { s with jobs := jobs, fds := t1, npipe := s.npipe + (p.processes.length - 1),
                 trace := s.trace ++ pre } = .stop st s1 ∧
      getFd s1.fds 0 = some (match cmd.input with
        | some path => File.input path
        | none => if 0 < i then File.pipeRead (s.npipe + (i - 1)) else a) ∧
      getFd s1.fds 1 = some (match cmd.output with
        | some path => File.output path
        | none => if i + 1 < p.processes.length then File.pipeWrite (s.npipe + i) else b) ∧
      (∀ file rest, cmd.argv = file :: rest → os.canExec file = true →
        st = .execed file cmd.argv) := by
    intro jobs
    obtain ⟨st, s1, hrun, hin0, hout1, hst⟩ := child_wired os p ps s.npipe p.processes.length i
      cmd
      { s with jobs := jobs, fds := t1, nfork := s.nfork + (i + 1),
               npipe := s.npipe + (p.processes.length - 1),
               trace := s.trace ++ pre ++ (launched os s.nfork (i + 1)).map Event.fork }
      a b hcmd hlen hw hi (hkeep 0 a h0) (hkeep 1 b h1) hin hout
    refine ⟨st, s1, ?_, hin0, hout1, hst⟩
    exact forkAll_child os p ps p.processes.length i p.processes.length 0
      { s with jobs := jobs, fds := t1, npipe := s.npipe + (p.processes.length - 1),
               trace := s.trace ++ pre } hi hparent hchild st s1 (by simpa using hrun)
  by_cases hj : jobbed = 0
  · obtain ⟨st, s1, hrun, rest⟩ := key (s.jobs ++ [p])
    refine ⟨st, s1, ?_, rest⟩
    simp only [execute, sizePipeline, deq_len, hn1, hn0, if_false, bind_run, pure_run, hcreate,
      hj, if_true, addJobs_run, hrun]
  · obtain ⟨st, s1, hrun, rest⟩ := key s.jobs
    refine ⟨st, s1, ?_, rest⟩
    simp only [execute, sizePipeline, deq_len, hn1, hn0, if_false, bind_run, pure_run, hcreate,
      hj, hrun]

/-- C4, witness: the second child of `ls | cat < in.txt > out.txt | wc`. -/
theorem pipeline_child_descriptors_witness :
    2 ≤ lsCatRedirectedWc.processes.length ∧
    lsCatRedirectedWc.processes[1]? = some catRedirected ∧
    (childOS 1).fork (freshShell.nfork + 1) = 0 ∧
    ∃ st s1, execute (childOS 1) lsCatRedirectedWc 0 0 freshShell = .stop st s1 ∧
      getFd s1.fds 0 = some (match catRedirected.input with
        | some path => File.input path
        | none => if 0 < 1 then File.pipeRead (freshShell.npipe + (1 - 1)) else File.tty 0) ∧
      getFd s1.fds 1 = some (match catRedirected.output with
        | some path => File.output path
        | none =>
          if 1 + 1 < lsCatRedirectedWc.processes.length then
            File.pipeWrite (freshShell.npipe + 1)
          else File.tty 1) ∧
      (∀ file rest, catRedirected.argv = file :: rest → (childOS 1).canExec file = true →
        st = .execed file catRedirected.argv) :=
  ⟨by decide, rfl, rfl,
    pipeline_child_descriptors (childOS 1) lsCatRedirectedWc 0 0 freshShell 1 catRedirected
      (.tty 0) (.tty 1) (by decide) rfl (fun _ => rfl)
      (fun k hk => by
        have hk0 : k = 0 := by omega
        subst hk0
        decide)
      rfl (fun _ _ => rfl) (fun _ _ => rfl) rfl rfl⟩

/-- C5, at the failing input: the first child of the pipeline `pwd | cat`
replaces its process image with the external program `pwd` and prints
nothing itself, whereas `child` of `Command.c` run on the same command runs
the builtin handler (it prints the directory and returns). -/
theorem pipeline_child_execs_builtin_name :
    (execute (childOS 0) ⟨[simpleCommand ["pwd"], simpleCommand ["cat"]], true⟩ 0 0
        freshShell).status = some (.execed "pwd" ["pwd"]) ∧
    (execute (childOS 0) ⟨[simpleCommand ["pwd"], simpleCommand ["cat"]], true⟩ 0 0
        freshShell).state.trace = [.pipe 3 4, .fork 0, .close 3, .close 4] ∧
    (child (childOS 0) (simpleCommand ["pwd"]) true freshShell).status = none ∧
    (child (childOS 0) (simpleCommand ["pwd"]) true freshShell).state.trace =
      [.print "/home\n"] := by
  decide

/-- C6 (as amended): a foreground single-command pipeline whose program is a
builtin runs the builtin handler in the calling process: its outcome is the
handler's, the jobbed flag is returned as it was, no process is created, the
Job Table is untouched, no pid is added to the registry, and the only waits
are those of `exit` on the registered pids.  For any other program name the
dispatcher answers 0 and leaves the state as it is. -/
theorem foreground_builtin_runs_in_shell (os : OS) (p : Pipeline) (r : Command)
    (jobbed eof : Int) (s : Proc)
    (hp : p.processes = [r]) (hfg : p.fg = true) (hb : r.file ∈ builtinNames) :
    execute os p jobbed eof s =
        (match builtin os r eof s with
          | .ret v s1 => .ret (jobbed, v.2) s1
          | .stop st s1 => .stop st s1) ∧
      (execute os p jobbed eof s).state.nfork = s.nfork ∧
      (execute os p jobbed eof s).state.jobs = s.jobs ∧
      (∃ evs, (execute os p jobbed eof s).state.trace = s.trace ++ evs ∧
        (∀ pid, Event.fork pid ∉ evs) ∧
        (∀ pid, Event.wait pid ∈ evs → r.file = "exit" ∧ pid ∈ s.background_pids.getD [])) ∧
      (∀ pid, pid ∈ (execute os p jobbed eof s).state.background_pids.getD [] →
        pid ∈ s.background_pids.getD []) ∧
      (∀ (r2 : Command) (eof2 : Int) (s2 : Proc), r2.file ∉ builtinNames →
        builtin os r2 eof2 s2 = .ret (0, eof2) s2) := by
  have hrun : execute os p jobbed eof s =
        (match builtin os r eof s with
          | .ret v s1 => .ret (jobbed, v.2) s1
          | .stop st s1 => .stop st s1) := by
    cases hx : builtin os r eof s with
    | ret v s1 =>
      have hv := builtin_value os r eof s hb v s1 hx
      obtain ⟨b, eof1⟩ := v
      simp only at hv
      subst hv
      simp [execute, sizePipeline, deq_len, deq_head_ith, hp, execCommand, hfg, hx]
    | stop st s1 =>
      simp [execute, sizePipeline, deq_len, deq_head_ith, hp, execCommand, hfg, hx]
  have hst : (execute os p jobbed eof s).state = (builtin os r eof s).state := by
    rw [hrun]
    cases builtin os r eof s <;> rfl
  have heff := builtin_effect os r eof s hb
  rw [← hst] at heff
  exact ⟨hrun, heff.1, heff.2.1, heff.2.2.1, heff.2.2.2,
    fun r2 eof2 s2 h2 => builtin_not_builtin os r2 eof2 s2 h2⟩

/-- C6, witness: the foreground pipeline `pwd` run by a fresh shell. -/
theorem foreground_builtin_runs_in_shell_witness :
    pwdAlone.processes = [simpleCommand ["pwd"]] ∧ pwdAlone.fg = true ∧
    (simpleCommand ["pwd"]).file ∈ builtinNames ∧
    (execute shellOS pwdAlone 0 0 freshShell).state.nfork = freshShell.nfork ∧
    (execute shellOS pwdAlone 0 0 freshShell).state.jobs = freshShell.jobs :=
  ⟨rfl, rfl, by decide,
    (foreground_builtin_runs_in_shell shellOS pwdAlone (simpleCommand ["pwd"]) 0 0 freshShell
      rfl rfl (by decide)).2.1,
    (foreground_builtin_runs_in_shell shellOS pwdAlone (simpleCommand ["pwd"]) 0 0 freshShell
      rfl rfl (by decide)).2.2.1⟩

/-- C6, counterexample: a foreground `exit` with pid 7 in the registry
performs a blocking wait. -/
theorem foreground_exit_waits :
    Event.wait 7 ∈ (execute shellOS ⟨[simpleCommand ["exit"]], true⟩ 0 0
      { freshShell with background_pids := some [7] }).state.trace := by
  decide

/-- C7: a single-command pipeline that is not a foreground builtin, whose
`fork` answers a positive pid: the pipeline is added to the Job Table exactly
when the jobbed flag was 0, the flag is 1 afterwards, one child is created;
a foreground pipeline then waits for that pid and leaves the registry alone,
a background one does not wait and appends the pid at the tail of the
registry, creating it when it did not exist. -/
theorem single_command_launch (os : OS) (p : Pipeline) (r : Command) (jobbed eof : Int)
    (s : Proc)
    (hp : p.processes = [r])
    (hnb : ¬ (p.fg = true ∧ r.file ∈ builtinNames))
    (hjob : jobbed = 0 ∨ jobbed = 1)
    (hfork : 0 < os.fork s.nfork) :
    execute os p jobbed eof s = .ret (1, eof)
      { s with jobs := if jobbed = 0 then s.jobs ++ [p] else s.jobs,
               nfork := s.nfork + 1,
               background_pids :=
                 if p.fg then s.background_pids
                 else some (s.background_pids.getD [] ++ [os.fork s.nfork]),
               trace := s.trace ++ [.fork (os.fork s.nfork)] ++
                 (if p.fg then [.wait (os.fork s.nfork)] else []) } := by
  rw [execute_single_launch os p r jobbed eof s hp hnb hfork]
  rcases hjob with rfl | rfl <;> simp

/-- C7, witness: the background pipeline `sleep 1 &` run by a fresh shell. -/
theorem single_command_launch_witness :
    sleepBackground.processes = [simpleCommand ["sleep", "1"]] ∧
    0 < shellOS.fork freshShell.nfork ∧
    execute shellOS sleepBackground 0 0 freshShell = .ret (1, 0)
      { freshShell with
        jobs := if (0 : Int) = 0 then freshShell.jobs ++ [sleepBackground] else freshShell.jobs
        nfork := freshShell.nfork + 1
        background_pids :=
          if sleepBackground.fg then freshShell.background_pids
          else some (freshShell.background_pids.getD [] ++ [shellOS.fork freshShell.nfork])
        trace := freshShell.trace ++ [.fork (shellOS.fork freshShell.nfork)] ++
          (if sleepBackground.fg then [.wait (shellOS.fork freshShell.nfork)] else []) } :=
  ⟨rfl, by decide,
    single_command_launch shellOS sleepBackground (simpleCommand ["sleep", "1"]) 0 0 freshShell
      rfl (fun h => Bool.noConfusion h.1) (Or.inl rfl) (by decide)⟩

/-- C8: with zero arguments the `exit` builtin returns after exactly one
blocking wait per registered pid, in queue order, leaves the registry empty
and sets the end-of-input flag to 1. -/
theorem bi_exit_drains_registry (os : OS) (r : Command) (eof : Int) (s : Proc)
    (hargs : r.argv.length = 1) :
    bi_exit os r eof s =
      .ret 1 { s with background_pids := s.background_pids.map (fun _ => []),
                      trace := s.trace ++ (s.background_pids.getD []).map Event.wait } := by
  have h1 : (r.argv.length : Int) = 0 + 1 := by simp [hargs]
  cases hq : s.background_pids with
  | none =>
    simp [bi_exit, builtin_args_ok os r 0 _ h1, hq]
    cases s; simp_all
  | some q =>
    simp [bi_exit, builtin_args_ok os r 0 _ h1, hq, bi_exit_loop_run]

/-- C8, witness: `exit` with pids 5 and 6 in the registry. -/
theorem bi_exit_drains_registry_witness :
    (simpleCommand ["exit"]).argv.length = 1 ∧
    bi_exit shellOS (simpleCommand ["exit"]) 0
        { freshShell with background_pids := some [5, 6] } =
      .ret 1 { freshShell with background_pids := some [], trace := [.wait 5, .wait 6] } :=
  ⟨rfl, bi_exit_drains_registry shellOS (simpleCommand ["exit"]) 0
    { freshShell with background_pids := some [5, 6] } rfl⟩

/-- C9: after `reap_background_processes` the registry holds exactly the
entries whose status check answered "still running" (the entries of `q`,
numbered by their check, filtered on the answer 0), in their original order;
every entry is checked once, in queue order, and (pids being distinct) a pid
whose check answered anything else is no longer in the registry.  An absent
registry is left absent. -/
theorem reap_keeps_exactly_still_running (os : OS) (s : Proc) (q : List Int) :
    reap_background_processes os { s with background_pids := some q } =
      .ret () { s with background_pids := some (stillRunning os s.npoll q),
                       npoll := s.npoll + q.length,
                       trace := s.trace ++ sweepChecks os s.npoll q } ∧
    reap_background_processes os { s with background_pids := none } =
      .ret () { s with background_pids := none } ∧
    stillRunning os s.npoll q =
      ((q.enumFrom s.npoll).filter fun x => decide (os.waitpid_nohang x.1 x.2 = 0)).map
        Prod.snd ∧
    sweepChecks os s.npoll q =
      ((q.enumFrom s.npoll).map fun x => Event.poll x.2 (os.waitpid_nohang x.1 x.2)) ∧
    (stillRunning os s.npoll q).Sublist q ∧
    (q.Nodup → ∀ (i : Nat) (hi : i < q.length),
      os.waitpid_nohang (s.npoll + i) (q.get ⟨i, hi⟩) ≠ 0 →
        q.get ⟨i, hi⟩ ∉ stillRunning os s.npoll q) := by
  refine ⟨?_, by simp [reap_background_processes], stillRunning_eq_filter os _ q,
    sweepChecks_eq_map os _ q, stillRunning_sublist os _ q,
    fun hq i hi h => stillRunning_not_mem os _ q hq i hi h⟩
  cases q with
  | nil => simp [reap_background_processes, deq_len, stillRunning, sweepChecks]
  | cons pid q =>
    have := reap_loop_run os (pid :: q) [] s
    simp only [List.append_nil, List.nil_append, List.length_cons] at this
    simp [reap_background_processes, deq_len, this]

/-- C9, witness: a sweep over pids 5, 6, 7 in which the check of 6 answers
"terminated": 6 is no longer in the registry. -/
theorem reap_keeps_exactly_still_running_witness :
    [(5 : Int), 6, 7].Nodup ∧ (6 : Int) ∉ stillRunning shellOS freshShell.npoll [5, 6, 7] :=
  ⟨by decide,
    (reap_keeps_exactly_still_running shellOS freshShell [5, 6, 7]).2.2.2.2.2 (by decide) 1
      (by decide) (by decide)⟩

/-- C10: running the builtin `cd -` twice in a row gives back the state it
started from, whatever the cached current and previous directories are. -/
theorem cd_dash_twice_restores (os : OS) (r : Command) (eof : Int) (s : Proc)
    (name : String)
    (hfile : r.file = "cd") (hargv : r.argv = [name, "-"]) :
    (do let (_, eof1) ← builtin os r eof
        builtin os r eof1) s = .ret (1, eof) s := by
  simp [builtin_cd, hfile, bi_cd_dash os r _ _ name hargv]

/-- C10, witness: `cd -` twice with current `/a` and previous unset. -/
theorem cd_dash_twice_restores_witness :
    (simpleCommand ["cd", "-"]).file = "cd" ∧
    (do let (_, eof1) ← builtin shellOS (simpleCommand ["cd", "-"]) 0
        builtin shellOS (simpleCommand ["cd", "-"]) eof1)
        { freshShell with cwd := some "/a" } =
      .ret (1, 0) { freshShell with cwd := some "/a" } :=
  ⟨rfl, cd_dash_twice_restores shellOS (simpleCommand ["cd", "-"]) 0
    { freshShell with cwd := some "/a" } "cd" rfl rfl⟩

/-- C11, at the failing input: `cd /nowhere` in a shell that cached `/home` as
current and `/tmp` as previous directory, the directory change failing.  The
failure is reported and the cached current directory stays `/home`, but the
cached previous directory has become `/home`: `owd = cwd` is executed before
`chdir` is attempted.  The same holds when `ERROR` ends the process. -/
theorem cd_failure_overwrites_previous :
    (bi_cd noChdirOS (simpleCommand ["cd", "/nowhere"]) 0 homeShell).state.cwd = some "/home" ∧
    (bi_cd noChdirOS (simpleCommand ["cd", "/nowhere"]) 0 homeShell).state.owd = some "/home" ∧
    homeShell.owd = some "/tmp" ∧
    (bi_cd noChdirOS (simpleCommand ["cd", "/nowhere"]) 0 homeShell).state.trace =
      [.chdir "/nowhere" false, .error "chdir() failed"] ∧
    (bi_cd { noChdirOS with errorExits := true } (simpleCommand ["cd", "/nowhere"]) 0
      homeShell).state.owd = some "/home" := by
  decide

/-- C12, at the failing input: `cd a b` when `ERROR` returns after reporting.
The error is reported and the handler then runs on: the OS directory and the
cached current directory become `a`, the cached previous directory becomes
`/home`.  Likewise `exit now` drains the registry and sets the end-of-input
flag.  When `ERROR` ends the process, `cd a b` ends the shell. -/
theorem wrong_argument_count_runs_handler :
    (builtin warnOS (simpleCommand ["cd", "a", "b"]) 0 homeShell).state.trace =
      [.error "wrong number of arguments to builtin command", .chdir "a" true] ∧
    (builtin warnOS (simpleCommand ["cd", "a", "b"]) 0 homeShell).state.osdir = "a" ∧
    (builtin warnOS (simpleCommand ["cd", "a", "b"]) 0 homeShell).state.cwd = some "a" ∧
    (builtin warnOS (simpleCommand ["cd", "a", "b"]) 0 homeShell).state.owd = some "/home" ∧
    (builtin warnOS (simpleCommand ["exit", "now"]) 0
      { homeShell with background_pids := some [7] }).value = some (1, 1) ∧
    (builtin warnOS (simpleCommand ["exit", "now"]) 0
      { homeShell with background_pids := some [7] }).state.background_pids = some [] ∧
    (builtin shellOS (simpleCommand ["cd", "a", "b"]) 0 homeShell).status =
      some (.exited 1) := by
  decide

/-- C13, at the failing input: the child forked for `pwd &` in the sequence
`pwd & ls`.  After the builtin handler has printed the directory the child
does not stop: `execCommand` returns in the child, and the child goes on to
run the next pipeline `ls` (it forks pid 101 and waits for it) and returns
from `execSequence`. -/
theorem child_builtin_returns_into_shell :
    (execSequence (childOS 0) [pwdBackground, lsAlone] 0 freshShell).status = none ∧
    (execSequence (childOS 0) [pwdBackground, lsAlone] 0 freshShell).state.trace =
      [.fork 0, .print "/home\n", .fork 101, .wait 101] ∧
    (execCommand (childOS 0) (simpleCommand ["pwd"]) pwdBackground 0 0 false freshShell).status =
      none := by
  decide

/-- C14: for a pipeline of `n ≥ 2` commands with every `pipe` succeeding there
are `n - 1` pipes `ps` such that: the shell (every `fork` answering a pid)
creates exactly these pipes, then the `n` children, then closes both ends of
every pipe, and only then waits; on return every descriptor is what it was
before the pipeline, both ends of every pipe being closed.  The `i`-th child
(`fork` answering 0 at the `i`-th call), whenever it stops by `execvp`, has
closed both ends of every pipe as the last thing before it, and holds none
of those descriptors. -/
theorem pipes_created_then_closed (os : OS) (p : Pipeline) (jobbed eof : Int) (s : Proc)
    (hn : 2 ≤ p.processes.length) (hpipe : ∀ k, os.pipe_ok k = true) :
    ∃ ps : List (Nat × Nat), ps.length = p.processes.length - 1 ∧
      ((∀ k, 0 < os.fork k) →
        ∃ s1, execute os p jobbed eof s = .ret (if jobbed = 0 then 1 else jobbed, eof) s1 ∧
          s1.trace = s.trace ++ pipeEvents ps ++
            (launched os s.nfork p.processes.length).map Event.fork ++ closeEvents ps ++
            (if p.fg then (launched os s.nfork p.processes.length).map Event.wait else []) ∧
          (∀ fd, getFd s1.fds fd = getFd s.fds fd) ∧
          (∀ pr ∈ ps, getFd s1.fds pr.1 = none ∧ getFd s1.fds pr.2 = none)) ∧
      (∀ i, i < p.processes.length → (∀ k, k < i → 0 < os.fork (s.nfork + k)) →
        os.fork (s.nfork + i) = 0 →
        ∃ st s1, execute os p jobbed eof s = .stop st s1 ∧
          ((∃ file args, st = .execed file args) →
            (∃ mid, s1.trace = s.trace ++ pipeEvents ps ++
              (launched os s.nfork (i + 1)).map Event.fork ++ mid ++ closeEvents ps) ∧
            ∀ pr ∈ ps, getFd s1.fds pr.1 = none ∧ getFd s1.fds pr.2 = none)) := by
  obtain ⟨ps, t1, hcreate, hlen, hfree, hopen, hkeep⟩ :=
    createPipes_exact os hpipe (p.processes.length - 1) s
  have hn1 : p.processes.length ≠ 1 := by omega
  have hn0 : p.processes.length ≠ 0 := by omega
  have hclose : ∀ s4 : Proc, execute.closePipes (ps.map some) (p.processes.length - 1) 0 s4 =
      .ret () { s4 with fds := closeAll ps s4.fds, trace := s4.trace ++ closeEvents ps } := by
    intro s4
    have := closePipes_exact [] ps s4
    simpa only [List.nil_append, List.length_nil, hlen] using this
  have htable : ∀ fd, getFd (closeAll ps t1) fd = getFd s.fds fd := by
    intro fd
    by_cases hmem : ∃ pr ∈ ps, fd = pr.1 ∨ fd = pr.2
    · obtain ⟨pr, hpr, h⟩ := hmem
      rcases h with rfl | rfl
      · rw [(closeAll_mem ps t1 pr hpr).1, (hfree pr hpr).1]
      · rw [(closeAll_mem ps t1 pr hpr).2, (hfree pr hpr).2]
    · have hnot : ∀ pr ∈ ps, fd ≠ pr.1 ∧ fd ≠ pr.2 := by
        intro pr hpr
        exact ⟨fun e => hmem ⟨pr, hpr, Or.inl e⟩, fun e => hmem ⟨pr, hpr, Or.inr e⟩⟩
      rw [closeAll_other ps t1 fd hnot, hkeep fd hnot]
  refine ⟨ps, hlen, ?_, ?_⟩
  · intro hfork
    have hshell : execute os p jobbed eof s = .ret (if jobbed = 0 then 1 else jobbed, eof)
        { s with jobs := if jobbed = 0 then s.jobs ++ [p] else s.jobs,
                 fds := closeAll ps t1,
                 nfork := s.nfork + p.processes.length,
                 npipe := s.npipe + (p.processes.length - 1),
                 trace := s.trace ++ pipeEvents ps ++
                   (launched os s.nfork p.processes.length).map Event.fork ++ closeEvents ps ++
                   (if p.fg then (launched os s.nfork p.processes.length).map Event.wait
                    else []) } := by
      by_cases hj : jobbed = 0
      · simp only [execute, sizePipeline, deq_len, hn1, hn0, if_false, bind_run, pure_run,
          hcreate, hj, if_true, addJobs_run, forkAll_shell os hfork, hclose]
        cases hfg : p.fg <;> simp [waitAll_run]
      · simp only [execute, sizePipeline, deq_len, hn1, hn0, if_false, bind_run, pure_run,
          hcreate, hj, forkAll_shell os hfork, hclose]
        cases hfg : p.fg <;> simp [waitAll_run]
    exact ⟨_, hshell, rfl, htable, fun pr hpr => closeAll_mem ps t1 pr hpr⟩
  · intro i hi hparent hchild
    have key : ∀ jobs : List Pipeline, ∃ st s1,
        execute.forkAll os p (ps.map some) p.processes.length p.processes.length 0
          { s with jobs := jobs, fds := t1, npipe := s.npipe + (p.processes.length - 1),
                   trace := s.trace ++ pipeEvents ps } = .stop st s1 ∧
        ((∃ file args, st = .execed file args) →
          (∃ mid, s1.trace = s.trace ++ pipeEvents ps ++
            (launched os s.nfork (i + 1)).map Event.fork ++ mid ++ closeEvents ps) ∧
          ∀ pr ∈ ps, getFd s1.fds pr.1 = none ∧ getFd s1.fds pr.2 = none) := by
      intro jobs
      obtain ⟨st, s1, hrun, hex⟩ := child_closes os p ps p.processes.length i
        { s with jobs := jobs, fds := t1, nfork := s.nfork + (i + 1),
                 npipe := s.npipe + (p.processes.length - 1),
                 trace := s.trace ++ pipeEvents ps ++
                   (launched os s.nfork (i + 1)).map Event.fork }
        hlen hi hopen
      refine ⟨st, s1, ?_, hex⟩
      exact forkAll_child os p (ps.map some) p.processes.length i p.processes.length 0
        { s with jobs := jobs, fds := t1, npipe := s.npipe + (p.processes.length - 1),
                 trace := s.trace ++ pipeEvents ps } hi hparent hchild st s1
        (by simpa using hrun)
    by_cases hj : jobbed = 0
    · obtain ⟨st, s1, hrun, rest⟩ := key (s.jobs ++ [p])
      refine ⟨st, s1, ?_, rest⟩
      simp only [execute, sizePipeline, deq_len, hn1, hn0, if_false, bind_run, pure_run,
        hcreate, hj, if_true, addJobs_run, hrun]
    · obtain ⟨st, s1, hrun, rest⟩ := key s.jobs
      refine ⟨st, s1, ?_, rest⟩
      simp only [execute, sizePipeline, deq_len, hn1, hn0, if_false, bind_run, pure_run,
        hcreate, hj, hrun]

/-- C14, witness: the pipeline `ls | cat | wc` in a fresh shell. -/
theorem pipes_created_then_closed_witness :
    2 ≤ lsCatWc.processes.length ∧
    ∃ ps : List (Nat × Nat), ps.length = lsCatWc.processes.length - 1 ∧
      ((∀ k, 0 < shellOS.fork k) →
        ∃ s1, execute shellOS lsCatWc 0 0 freshShell =
            .ret (if (0 : Int) = 0 then 1 else 0, 0) s1 ∧
          s1.trace = freshShell.trace ++ pipeEvents ps ++
            (launched shellOS freshShell.nfork lsCatWc.processes.length).map Event.fork ++
            closeEvents ps ++
            (if lsCatWc.fg then
              (launched shellOS freshShell.nfork lsCatWc.processes.length).map Event.wait
             else []) ∧
          (∀ fd, getFd s1.fds fd = getFd freshShell.fds fd) ∧
          (∀ pr ∈ ps, getFd s1.fds pr.1 = none ∧ getFd s1.fds pr.2 = none)) ∧
      (∀ i, i < lsCatWc.processes.length →
        (∀ k, k < i → 0 < shellOS.fork (freshShell.nfork + k)) →
        shellOS.fork (freshShell.nfork + i) = 0 →
        ∃ st s1, execute shellOS lsCatWc 0 0 freshShell = .stop st s1 ∧
          ((∃ file args, st = .execed file args) →
            (∃ mid, s1.trace = freshShell.trace ++ pipeEvents ps ++
              (launched shellOS freshShell.nfork (i + 1)).map Event.fork ++ mid ++
              closeEvents ps) ∧
            ∀ pr ∈ ps, getFd s1.fds pr.1 = none ∧ getFd s1.fds pr.2 = none)) :=
  ⟨by decide, pipes_created_then_closed shellOS lsCatWc 0 0 freshShell (by decide) (fun _ => rfl)⟩

/-- C15, counterexample: `execute` on the foreground pipeline without
commands, in a fresh shell, the jobbed flag being 0 and `ERROR` returning.
It is not a no-op: the flag comes back as 1 and the pipeline is in the Job
Table, after the report that the first `malloc`, of size
`sizeof(int *) * (n - 1)`, failed.  When `ERROR` ends the process, the shell
ends. -/
theorem empty_pipeline_sets_jobbed :
    (execute warnOS ⟨[], true⟩ 0 0 freshShell).value = some (1, 0) ∧
    (execute warnOS ⟨[], true⟩ 0 0 freshShell).state.jobs = [⟨[], true⟩] ∧
    (execute warnOS ⟨[], true⟩ 0 0 freshShell).state.trace = [.error "malloc() failed"] ∧
    (execute shellOS ⟨[], true⟩ 0 0 freshShell).status = some (.exited 1) := by
  decide

/-- C15, amended: on a pipeline without commands `execute` creates no pipe,
creates no process and waits for nothing, and leaves the descriptors as
they are.  No such pipeline comes from the front end: every pipeline the
interpreter builds from a tree that `parseTree` returns holds at least one
entry. -/
theorem empty_pipeline_launches_nothing (os : OS) (fg : Bool) (jobbed eof : Int) (s : Proc) :
    ((execute os ⟨[], fg⟩ jobbed eof s).state.npipe = s.npipe ∧
      (execute os ⟨[], fg⟩ jobbed eof s).state.nfork = s.nfork ∧
      (execute os ⟨[], fg⟩ jobbed eof s).state.fds = s.fds ∧
      ∃ evs, (execute os ⟨[], fg⟩ jobbed eof s).state.trace = s.trace ++ evs ∧
        ∀ e ∈ evs, Event.quiet e = true ∧ e ≠ .pipeFailed ∧ ∀ r w, e ≠ .pipe r w) ∧
    (∀ (fuel : Nat) (input : List Char) (junk : Option T_redir) (tree : T_sequence),
      Parsed.value (parseTree os fuel input) = some tree →
      ∀ p ∈ i_sequence junk tree newSequence, p.processes ≠ []) := by
  constructor
  · rw [execute_empty]
    cases os.errorExits <;>
      exact ⟨rfl, rfl, rfl, [.error "malloc() failed"], rfl, by simp [Event.quiet]⟩
  · intro fuel input junk tree h
    exact i_sequence_entries junk tree newSequence (parseTree_full os fuel input tree h)
      (by simp [newSequence, deq_new])

/-- C15, witness: the tree of `ls | wc` and the pipeline built from it. -/
theorem empty_pipeline_launches_nothing_witness :
    Parsed.value (parseTree warnOS 8 "ls | wc".toList) =
      some (.node
        (.node (some ⟨[⟨"ls"⟩], some ⟨none, none⟩⟩)
          (.node (some ⟨[⟨"wc"⟩], some ⟨none, none⟩⟩) .null))
        none .null) ∧
    ∀ p ∈ i_sequence none
        (.node
          (.node (some ⟨[⟨"ls"⟩], some ⟨none, none⟩⟩)
            (.node (some ⟨[⟨"wc"⟩], some ⟨none, none⟩⟩) .null))
          none .null) newSequence,
      p.processes ≠ [] :=
  ⟨by decide,
    (empty_pipeline_launches_nothing warnOS true 0 0 freshShell).2 8 "ls | wc".toList none _
      (by decide)⟩

/-- C16: `i_sequence` appends to the Sequence one Pipeline per node of the
sequence list, in the order of the list; the Pipeline of a node holds what
`i_command` makes of the node's commands, in order, and its foreground flag
is false exactly when the node's operator is `&` (true for `;` and for no
operator). -/
theorem i_sequence_flags_in_order (junk : Option T_redir) (t : T_sequence) (sequence : List PipelineRep) :
    i_sequence junk t sequence =
      sequence ++ t.nodes.map fun nd =>
        { processes := nd.1.commands.map (i_command junk),
          fg := decide (nd.2 ≠ some "&") } := by
  induction t generalizing sequence with
  | null => simp [i_sequence, T_sequence.nodes]
  | node pipeline op rest ih =>
    simp only [i_sequence, T_sequence.nodes, ih, addSequence, deq_tail_put, i_pipeline_run,
      newPipeline, deq_new, List.nil_append, List.map_cons, List.append_assoc,
      List.singleton_append]
    by_cases h : op = some "&" <;> simp [h]

/-- C17, at the failing input: the Command `i_command` builds does not depend
on the redirection record of the node, which is never passed to
`newCommand`.  For the node `cat < in.txt > out.txt`, the missing argument
being the null pointer, the Command has no input and no output path.  The
words do arrive: the arguments are the words in order, the program is the
first word, and a node without words gives no Command. -/
theorem i_command_ignores_redirection :
    (∀ (junk : Option T_redir) (words : T_words) (rd1 rd2 : Option T_redir),
      i_command junk (some ⟨words, rd1⟩) = i_command junk (some ⟨words, rd2⟩)) ∧
    i_command none (some ⟨[⟨"cat"⟩], some ⟨some "in.txt", some "out.txt"⟩⟩) =
      some { file := "cat", argv := ["cat"], input := none, output := none } ∧
    (∀ (junk : Option T_redir) (word : T_word) (words : T_words) (rd : Option T_redir),
      (i_command junk (some ⟨word :: words, rd⟩)).map (fun c => (c.file, c.argv)) =
        some (word.s, (word :: words).map fun w => w.s)) ∧
    (∀ (junk rd : Option T_redir), i_command junk (some ⟨[], rd⟩) = none) := by
  refine ⟨fun _ _ _ _ => rfl, by decide, ?_, fun _ _ => rfl⟩
  intro junk word words rd
  have hg : ∀ ws : T_words, getargs ws = ws.map fun w => w.s := by
    intro ws
    induction ws with
    | nil => rfl
    | cons w ws ih => simp [getargs, ih]
  simp [i_command, newCommand, hg]

/-- C18, at the failing input: `cd /nowhere`, which fails, then `cd /tmp`,
which succeeds, in a shell that cached `/home` as current and `/tmp` as
previous directory, `ERROR` returning.  The failed `cd` leaves both statics
holding the one pointer to `/home`.  The successful `cd` frees that string
through `owd` and then copies the pointer: the current directory is cached
as `/tmp`, but the cached previous directory is a pointer to the freed
string, not the directory `/home`.  A third `cd` frees it a second time. -/
theorem cd_after_failed_cd_frees_previous :
    (bi_cd pickyOS (simpleCommand ["cd", "/nowhere"]) 0 homeShell).state.cwd = some "/home" ∧
    (bi_cd pickyOS (simpleCommand ["cd", "/nowhere"]) 0 homeShell).state.owd = some "/home" ∧
    (bi_cd pickyOS (simpleCommand ["cd", "/nowhere"]) 0 homeShell).state.shared = true ∧
    ((do let eof ← bi_cd pickyOS (simpleCommand ["cd", "/nowhere"]) 0
         bi_cd pickyOS (simpleCommand ["cd", "/tmp"]) eof) homeShell).status = none ∧
    ((do let eof ← bi_cd pickyOS (simpleCommand ["cd", "/nowhere"]) 0
         bi_cd pickyOS (simpleCommand ["cd", "/tmp"]) eof) homeShell).state.cwd = some "/tmp" ∧
    ((do let eof ← bi_cd pickyOS (simpleCommand ["cd", "/nowhere"]) 0
         bi_cd pickyOS (simpleCommand ["cd", "/tmp"]) eof) homeShell).state.cwd_freed = false ∧
    ((do let eof ← bi_cd pickyOS (simpleCommand ["cd", "/nowhere"]) 0
         bi_cd pickyOS (simpleCommand ["cd", "/tmp"]) eof) homeShell).state.owd_freed = true ∧
    ((do let eof ← bi_cd pickyOS (simpleCommand ["cd", "/nowhere"]) 0
         bi_cd pickyOS (simpleCommand ["cd", "/tmp"]) eof) homeShell).state.trace =
      [.chdir "/nowhere" false, .error "chdir() failed", .chdir "/tmp" true] ∧
    ((do let eof ← bi_cd pickyOS (simpleCommand ["cd", "/nowhere"]) 0
         let eof ← bi_cd pickyOS (simpleCommand ["cd", "/tmp"]) eof
         bi_cd pickyOS (simpleCommand ["cd", "/home"]) eof) homeShell).status =
      some .undefined := by
  decide

/-- C19: `builtin_args` reports "wrong number of arguments to builtin command"
exactly when the number of arguments after the program name differs from
`n`, and otherwise returns without any effect. -/
theorem builtin_args_reports_iff (os : OS) (r : Command) (n : Int) (s : Proc) :
    ((builtin_args os r n s).state.trace =
        s.trace ++ [.error "wrong number of arguments to builtin command"] ↔
      (r.argv.length : Int) - 1 ≠ n) ∧
    (builtin_args os r n s = .ret () s ↔ (r.argv.length : Int) - 1 = n) := by
  have hloop : builtin_args.loop r.argv (n + 1) = 0 ↔ (r.argv.length : Int) - 1 = n := by
    rw [builtin_args_loop_eq]; omega
  by_cases h : (r.argv.length : Int) - 1 = n
  · have h0 := hloop.2 h
    simp [builtin_args, h0, h, Res.state]
  · have h0 : ¬ builtin_args.loop r.argv (n + 1) = 0 := fun x => h (hloop.1 x)
    cases he : os.errorExits <;> simp [builtin_args, h0, h, Res.state, ERROR, he]
    intro hx
    have := congrArg Proc.trace hx
    simp at this

/-- C20: on a fresh scanner over `s`, the `i`-th call of `nextScanner`
(counting from 0) returns the `i`-th maximal run of characters of `s` that
are neither space nor tab, and the null pointer once the runs are
exhausted, on that call and on every later one. -/
theorem nextScanner_yields_maximal_runs (s : List Char) (k : Nat) :
    nextScanner.calls k (newScanner s) = (List.range k).map fun i => (tokensOf s)[i]? :=
  calls_scan k (newScanner s) rfl

/-- C21: for every input whose tokens are `w1 .. wn [< in] [> out]` with
`n ≥ 1` and no `wi` among `|`, `&`, `;`, `<`, `>`, and every bound on the
recursion above the number of tokens, `parseTree` returns, without reporting
an error, one sequence node without operator or successor, holding one
pipeline node without successor, holding the command with the words
`w1 .. wn` in order and the redirection record with input `in` and output
`out` (unset when absent); no token is left: `curr()` is the null pointer. -/
theorem parseTree_single_command (os : OS) (s : List Char) (ws : List String) (inp out : Option String)
    (fuel : Nat)
    (hne : ws ≠ [])
    (hws : ∀ w ∈ ws, w ∉ operators)
    (htok : tokensOf s = ws ++ redirTokens inp out)
    (hfuel : (tokensOf s).length < fuel) :
    ∃ scan, parseTree os fuel s =
        some (.ret
          (.node (.node (some { words := ws.map T_word.mk, redir := some ⟨inp, out⟩ }) .null)
            none .null)
          { scan := scan, trace := [] }) ∧
      (currScanner scan).1 = none := by
  obtain ⟨w, ws, rfl⟩ : ∃ w l, ws = w :: l := List.exists_cons_of_ne_nil hne
  obtain ⟨f, rfl⟩ : ∃ f, fuel = f + 1 := ⟨fuel - 1, by omega⟩
  have hpend : (newScanner s).pending = w :: ws ++ redirTokens inp out := by
    simp [ScannerRep.pending, newScanner, htok]
  have hrest : ∀ x, (redirTokens inp out).head? = some x → x ∈ operators := by
    intro x hx
    cases inp <;> cases out <;> simp [redirTokens] at hx <;> simp [operators, ← hx]
  obtain ⟨r1, h1, hp1, hr1⟩ := p_words_run ws (f + 1) ⟨newScanner s, []⟩ w _ hpend
    (fun x hx => hws x (by simp [hx])) hrest
    (by simp [htok] at hfuel; omega)
  obtain ⟨r2, h2, hp2, hr2⟩ := p_redir_run os ⟨r1, []⟩ inp out hr1 hp1
  have he (t : String) : Parser.eat t ⟨r2, []⟩ = some (.ret 0 ⟨r2, []⟩) :=
    eat_fails t _ hr2 (by simp [hp2])
  have hc : currScanner r2 = (none, r2) := by
    rw [currScanner_ready r2 hr2, hp2]; rfl
  refine ⟨r2, ?_, by rw [hc]⟩
  simp [parseTree, p_sequence, p_pipeline, p_command, h1, h2, he, Parser.curr, hc,
    new_pipeline, new_sequence, T_pipeline.set_command, T_sequence.set_pipeline]

/-- C21, witness: the input `ls -l < a > b`. -/
theorem parseTree_single_command_witness :
    ["ls", "-l"] ≠ [] ∧ (∀ w ∈ ["ls", "-l"], w ∉ operators) ∧
    tokensOf "ls -l < a > b".toList = ["ls", "-l"] ++ redirTokens (some "a") (some "b") ∧
    (tokensOf "ls -l < a > b".toList).length < 7 ∧
    ∃ scan, parseTree shellOS 7 "ls -l < a > b".toList =
        some (.ret
          (.node
            (.node (some { words := (["ls", "-l"] : List String).map T_word.mk,
                           redir := some ⟨some "a", some "b"⟩ }) .null)
            none .null)
          { scan := scan, trace := [] }) ∧
      (currScanner scan).1 = none :=
  ⟨by decide, by decide, by decide, by decide,
    parseTree_single_command shellOS "ls -l < a > b".toList ["ls", "-l"] (some "a") (some "b") 7
      (by decide) (by decide) (by decide) (by decide)⟩

/-- C22: a background pipeline of the single command `r`, whose program is a
builtin.  In the shell (`fork` answers a pid) `execute` returns with the
end-of-input flag as it was and the jobbed flag set; the state differs only
in that the pid is appended to the registry (created when absent), the
pipeline is in the Job Table when the flag was 0, and one `fork` is logged:
the cached directories, the OS directory and the descriptors are unchanged
and no handler has run.  In the child (`fork` answers 0, no redirection) the
handler runs, on the child's copy of the state and with a flag of its own. -/
theorem background_builtin_leaves_shell (os : OS) (r : Command) (jobbed eof : Int) (s : Proc)
    (hb : r.file ∈ builtinNames) :
    (0 < os.fork s.nfork →
      execute os ⟨[r], false⟩ jobbed eof s = .ret (if jobbed = 0 then 1 else jobbed, eof)
        { s with jobs := if jobbed = 0 then s.jobs ++ [⟨[r], false⟩] else s.jobs,
                 nfork := s.nfork + 1,
                 background_pids := some (s.background_pids.getD [] ++ [os.fork s.nfork]),
                 trace := s.trace ++ [.fork (os.fork s.nfork)] }) ∧
    (os.fork s.nfork = 0 → r.input = none → r.output = none →
      execute os ⟨[r], false⟩ jobbed eof s =
        (do let _ ← builtin os r 0
            pure (if jobbed = 0 then 1 else jobbed, eof) : Run (Int × Int))
          { s with jobs := if jobbed = 0 then s.jobs ++ [⟨[r], false⟩] else s.jobs,
                   nfork := s.nfork + 1,
                   trace := s.trace ++ [.fork 0] }) := by
  constructor
  · intro hfork
    rw [execute_single_launch os ⟨[r], false⟩ r jobbed eof s rfl (by simp) hfork]
    simp
  · intro hfork hin hout
    by_cases hj : jobbed = 0 <;>
      simp [execute, sizePipeline, deq_len, deq_head_ith, execCommand,
        child_builtin os r false hb hin hout, hfork, hj] <;>
      (generalize builtin os r 0 _ = x; cases x <;> rfl)

/-- C22, witness: `cd /tmp &` in a shell that cached `/home` and `/tmp`. -/
theorem background_builtin_leaves_shell_witness :
    (simpleCommand ["cd", "/tmp"]).file ∈ builtinNames ∧
    0 < shellOS.fork homeShell.nfork ∧
    execute shellOS ⟨[simpleCommand ["cd", "/tmp"]], false⟩ 0 0 homeShell =
      .ret (1, 0)
        { homeShell with jobs := [⟨[simpleCommand ["cd", "/tmp"]], false⟩],
                         nfork := 1,
                         background_pids := some [100],
                         trace := [.fork 100] } :=
  ⟨by decide, by decide,
    (background_builtin_leaves_shell shellOS (simpleCommand ["cd", "/tmp"]) 0 0 homeShell
      (by decide)).1 (by decide)⟩

end Shell
